import Mathlib

/-!
Verification of the picture-collection tools (index_pictures.py and
plot_growth.py) against their specification.

The two Python scripts are shallowly embedded below:
  * pure helpers (parse_date, os.path.splitext, os.path.dirname,
    os.path.relpath, the EXIF / ffprobe date extractors) become pure Lean
    functions over List Char / String;
  * the stateful parts (the SQLite catalog, the reconciliation scan, the
    aggregation loops) become explicit state passing over lists;
  * Python exceptions become Option / explicit outcome values: a caught
    exception is the none branch of the corresponding total function;
  * the SQLite table (primary key file_path) is modeled as a list of rows
    whose file_path entries are pairwise distinct; INSERT OR REPLACE updates
    the row carrying the key and DELETE filters it out.
Machine reals never appear: Python float arithmetic on byte counts is
modeled with exact rationals.
-/

/-! ## datetime.datetime (naive), as used by both scripts -/

/-- Model of a naive Python datetime.datetime value (plot_growth.py works
with the six fields produced by datetime.strptime). -/
structure Datetime where
  year : ℕ
  month : ℕ
  day : ℕ
  hour : ℕ
  minute : ℕ
  second : ℕ
deriving DecidableEq

/-- Python datetime comparison is lexicographic on
(year, month, day, hour, minute, second); this is the strict order. -/
def Datetime.ltb (a b : Datetime) : Bool :=
  if a.year ≠ b.year then decide (a.year < b.year)
  else if a.month ≠ b.month then decide (a.month < b.month)
  else if a.day ≠ b.day then decide (a.day < b.day)
  else if a.hour ≠ b.hour then decide (a.hour < b.hour)
  else if a.minute ≠ b.minute then decide (a.minute < b.minute)
  else decide (a.second < b.second)

/-- Non-strict Python datetime comparison. -/
def Datetime.leb (a b : Datetime) : Bool :=
  Datetime.ltb a b || decide (a = b)

/-! ## datetime.strptime for the three formats of parse_date

CPython compiles a strptime format to a regular expression
(Lib/_strptime.py) and then validates the fields through the
datetime constructor.  The relevant pieces:
  %Y matches exactly four digits;
  %m matches 1[0-2]|0[1-9]|[1-9];  %d matches 3[01]|[12]d|0[1-9]|[1-9];
  %H matches 2[0-3]|[0-1]d|d;  %M matches [0-5]d|d;  %S matches 6[0-1]|[0-5]d|d;
  a whitespace character in the format matches one or more whitespace
  characters of the input;
  the whole input must be consumed, otherwise ValueError;
  the datetime constructor additionally requires 1 <= year, a day that
  exists in the month, and second <= 59 (otherwise ValueError, which
  parse_date catches).
In every format used here each numeric field is followed by a non-digit
literal or by the end of the input, so the greedy two-digit alternatives
of the regular expression are equivalent to taking the maximal run of at
most two digits and range-checking it, which is what parseNum2 does.
Only ASCII digits and ASCII whitespace are modeled. -/

/-- Numeric value of an ASCII digit character. -/
def digitVal (c : Char) : ℕ := c.toNat - 48

/-- Matches the %Y directive: exactly four digits. -/
def parseY : List Char → Option (ℕ × List Char)
  | c1 :: c2 :: c3 :: c4 :: rest =>
    if c1.isDigit && c2.isDigit && c3.isDigit && c4.isDigit then
      some (1000 * digitVal c1 + 100 * digitVal c2 + 10 * digitVal c3 + digitVal c4, rest)
    else none
  | _ => none

/-- Matches a one- or two-digit numeric directive whose regular-expression
alternatives admit exactly the values lo..hi (maximal munch, see above). -/
def parseNum2 (lo hi : ℕ) : List Char → Option (ℕ × List Char)
  | c1 :: c2 :: rest =>
    if c1.isDigit then
      if c2.isDigit then
        let v := 10 * digitVal c1 + digitVal c2
        if lo ≤ v ∧ v ≤ hi then some (v, rest) else none
      else
        let v := digitVal c1
        if lo ≤ v ∧ v ≤ hi then some (v, c2 :: rest) else none
    else none
  | [c1] =>
    if c1.isDigit then
      let v := digitVal c1
      if lo ≤ v ∧ v ≤ hi then some (v, []) else none
    else none
  | [] => none

/-- Matches one literal (non-whitespace) format character. -/
def expectLit (ch : Char) : List Char → Option (List Char)
  | c :: rest => if c = ch then some rest else none
  | [] => none

/-- ASCII whitespace, as matched by the strptime regular expression. -/
def isPySpace (c : Char) : Bool :=
  c = ' ' || c = '\t' || c = '\n' || c = '\r' || c = '\x0b' || c = '\x0c'

/-- Matches a whitespace character of the format: one or more whitespace
characters of the input. -/
def expectWs : List Char → Option (List Char)
  | c :: rest => if isPySpace c then some (rest.dropWhile isPySpace) else none
  | [] => none

/-- Length of a month, as validated by the datetime constructor. -/
def daysInMonth (y m : ℕ) : ℕ :=
  if m = 2 then (if y % 4 = 0 && (y % 100 ≠ 0 || y % 400 = 0) then 29 else 28)
  else if m = 4 || m = 6 || m = 9 || m = 11 then 30 else 31

/-- Validation performed by the datetime constructor; a failure raises
ValueError inside strptime, which parse_date catches. -/
def mkDatetime (y m d h mi s : ℕ) : Option Datetime :=
  if 1 ≤ y ∧ y ≤ 9999 ∧ 1 ≤ m ∧ m ≤ 12 ∧ 1 ≤ d ∧ d ≤ daysInMonth y m
      ∧ h ≤ 23 ∧ mi ≤ 59 ∧ s ≤ 59
  then some (Datetime.mk y m d h mi s) else none

/-- Parses strptime format "%Y:%m:%d %H:%M:%S" (plot_growth.py line 33). -/
def strptimeColonDT (str : String) : Option Datetime := do
  let cs := str.toList
  let (y, cs) ← parseY cs
  let cs ← expectLit ':' cs
  let (m, cs) ← parseNum2 1 12 cs
  let cs ← expectLit ':' cs
  let (d, cs) ← parseNum2 1 31 cs
  let cs ← expectWs cs
  let (h, cs) ← parseNum2 0 23 cs
  let cs ← expectLit ':' cs
  let (mi, cs) ← parseNum2 0 59 cs
  let cs ← expectLit ':' cs
  let (s, cs) ← parseNum2 0 61 cs
  if cs = [] then mkDatetime y m d h mi s else none

/-- Parses strptime format "%Y-%m-%d %H:%M:%S" (plot_growth.py line 34). -/
def strptimeDashDT (str : String) : Option Datetime := do
  let cs := str.toList
  let (y, cs) ← parseY cs
  let cs ← expectLit '-' cs
  let (m, cs) ← parseNum2 1 12 cs
  let cs ← expectLit '-' cs
  let (d, cs) ← parseNum2 1 31 cs
  let cs ← expectWs cs
  let (h, cs) ← parseNum2 0 23 cs
  let cs ← expectLit ':' cs
  let (mi, cs) ← parseNum2 0 59 cs
  let cs ← expectLit ':' cs
  let (s, cs) ← parseNum2 0 61 cs
  if cs = [] then mkDatetime y m d h mi s else none

/-- Parses strptime format "%Y-%m-%d" (plot_growth.py line 35); the time
fields default to zero. -/
def strptimeDashD (str : String) : Option Datetime := do
  let cs := str.toList
  let (y, cs) ← parseY cs
  let cs ← expectLit '-' cs
  let (m, cs) ← parseNum2 1 12 cs
  let cs ← expectLit '-' cs
  let (d, cs) ← parseNum2 1 31 cs
  if cs = [] then mkDatetime y m d 0 0 0 else none

/-- Embedding of parse_date (plot_growth.py lines 27-42): the loop tries
the three formats in order, returning on the first success; every
ValueError is caught, so the function is total and returns none when no
format matches. -/
def parse_date (date_str : String) : Option Datetime :=
  match strptimeColonDT date_str with
  | some dt => some dt
  | none =>
    match strptimeDashDT date_str with
    | some dt => some dt
    | none => strptimeDashD date_str

/-- C3: parse_date is total over strings (it is a Lean function into
Option, the none branch modeling every caught ValueError, so it never
raises); it tries the colon date-time format, then the dash date-time
format, then the dash date-only format, in that fixed order; the first
matching format produces the result and later formats are not consulted;
none is returned when no format matches; and the four concrete examples
evaluate as the specification states. -/
theorem parse_date_spec :
    parse_date "" = none
    ∧ parse_date "not a date" = none
    ∧ parse_date "2023:05:01 10:00:00" = some (Datetime.mk 2023 5 1 10 0 0)
    ∧ parse_date "2023-05-01" = some (Datetime.mk 2023 5 1 0 0 0)
    ∧ (∀ s dt, strptimeColonDT s = some dt → parse_date s = some dt)
    ∧ (∀ s dt, strptimeColonDT s = none → strptimeDashDT s = some dt →
        parse_date s = some dt)
    ∧ (∀ s, strptimeColonDT s = none → strptimeDashDT s = none →
        parse_date s = strptimeDashD s) := by
  refine ⟨by decide, by decide, by decide, by decide, ?_, ?_, ?_⟩
  · intro s dt h; simp [parse_date, h]
  · intro s dt h1 h2; simp [parse_date, h1, h2]
  · intro s h1 h2; simp [parse_date, h1, h2]

/-- Witness for parse_date_spec: the priority conjuncts applied at
concrete inputs, their hypotheses discharged by evaluation. -/
theorem parse_date_spec_witness :
    parse_date "1999:12:31 23:59:59" = some (Datetime.mk 1999 12 31 23 59 59)
    ∧ parse_date "2020-02-29 01:02:03" = some (Datetime.mk 2020 2 29 1 2 3)
    ∧ parse_date "2021-07-06" = strptimeDashD "2021-07-06" := by
  refine ⟨?_, ?_, ?_⟩
  · exact parse_date_spec.2.2.2.2.1 "1999:12:31 23:59:59"
      (Datetime.mk 1999 12 31 23 59 59) (by decide)
  · exact parse_date_spec.2.2.2.2.2.1 "2020-02-29 01:02:03"
      (Datetime.mk 2020 2 29 1 2 3) (by decide) (by decide)
  · exact parse_date_spec.2.2.2.2.2.2 "2021-07-06" (by decide) (by decide)

/-! ## Python string comparison and sorted()

Python compares strings lexicographically by code point; sorted() returns
the ascending ordering.  The comparison is embedded as a boolean function
on the character lists and sorted() as insertion sort (the two scripts
only sort duplicate-free key sets, on which every correct ascending sort
agrees). -/

/-- Lexicographic code-point comparison of character lists (Python string
less-than). -/
def charListLt : List Char → List Char → Bool
  | _, [] => false
  | [], _ :: _ => true
  | a :: as, b :: bs =>
    decide (a.toNat < b.toNat) || (decide (a.toNat = b.toNat) && charListLt as bs)

/-- Python string strict less-than. -/
def strLtB (a b : String) : Bool := charListLt a.toList b.toList

/-- Python string less-or-equal. -/
def strLeB (a b : String) : Bool := strLtB a b || decide (a = b)

theorem char_toNat_inj {a b : Char} (h : a.toNat = b.toNat) : a = b := by
  apply Char.ext
  exact UInt32.toNat.inj h

theorem charListLt_trans :
    ∀ x y z : List Char, charListLt x y = true → charListLt y z = true →
      charListLt x z = true := by
  intro x
  induction x with
  | nil =>
    intro y z hxy hyz
    cases y with
    | nil => simp [charListLt] at hxy
    | cons b bs =>
      cases z with
      | nil => simp [charListLt] at hyz
      | cons c cs => simp [charListLt]
  | cons a as ih =>
    intro y z hxy hyz
    cases y with
    | nil => simp [charListLt] at hxy
    | cons b bs =>
      cases z with
      | nil => simp [charListLt] at hyz
      | cons c cs =>
        simp only [charListLt, Bool.or_eq_true, Bool.and_eq_true, decide_eq_true_eq] at *
        rcases hxy with h1 | ⟨h1, h1r⟩ <;> rcases hyz with h2 | ⟨h2, h2r⟩
        · exact Or.inl (h1.trans h2)
        · exact Or.inl (h2 ▸ h1)
        · exact Or.inl (h1 ▸ h2)
        · exact Or.inr ⟨h1.trans h2, ih bs cs h1r h2r⟩

theorem charListLt_total :
    ∀ x y : List Char, charListLt x y = false → charListLt y x = false → x = y := by
  intro x
  induction x with
  | nil =>
    intro y hxy _
    cases y with
    | nil => rfl
    | cons b bs => simp [charListLt] at hxy
  | cons a as ih =>
    intro y hxy hyx
    cases y with
    | nil => simp [charListLt] at hyx
    | cons b bs =>
      simp only [charListLt, Bool.or_eq_false_iff, Bool.and_eq_false_iff,
        decide_eq_false_iff_not, not_lt] at hxy hyx
      obtain ⟨hab, hxy2⟩ := hxy
      obtain ⟨hba, hyx2⟩ := hyx
      have hEq : a.toNat = b.toNat := le_antisymm hba hab
      rcases hxy2 with h | h
      · exact absurd hEq (by simpa using h)
      · rcases hyx2 with h2 | h2
        · exact absurd hEq.symm (by simpa using h2)
        · exact congrArg₂ List.cons (char_toNat_inj hEq) (ih bs h h2)

theorem strLeB_trans {a b c : String} (h1 : strLeB a b = true)
    (h2 : strLeB b c = true) : strLeB a c = true := by
  simp only [strLeB, strLtB, Bool.or_eq_true, decide_eq_true_eq] at *
  rcases h1 with h1 | rfl
  · rcases h2 with h2 | rfl
    · exact Or.inl (charListLt_trans _ _ _ h1 h2)
    · exact Or.inl h1
  · exact h2

theorem strLeB_total (a b : String) : strLeB a b = true ∨ strLeB b a = true := by
  by_cases h1 : charListLt a.toList b.toList = true
  · left
    simp only [strLeB, strLtB, Bool.or_eq_true]
    exact Or.inl h1
  · by_cases h2 : charListLt b.toList a.toList = true
    · right
      simp only [strLeB, strLtB, Bool.or_eq_true]
      exact Or.inl h2
    · left
      have h3 : a.toList = b.toList :=
        charListLt_total _ _ (by simpa using h1) (by simpa using h2)
      have h4 : a = b := by
        cases a; cases b
        exact congrArg String.mk h3
      simp [strLeB, h4]

/-- Insertion step of the model of Python sorted(). -/
def insertStr (x : String) : List String → List String
  | [] => [x]
  | y :: ys => if strLeB x y then x :: y :: ys else y :: insertStr x ys

/-- Model of Python sorted() on string lists: ascending insertion sort. -/
def sortStrings : List String → List String
  | [] => []
  | x :: xs => insertStr x (sortStrings xs)

theorem perm_insertStr (x : String) (l : List String) :
    List.Perm (insertStr x l) (x :: l) := by
  induction l with
  | nil => simp [insertStr]
  | cons y ys ih =>
    by_cases h : strLeB x y = true
    · simp [insertStr, h]
    · simp only [insertStr, h, if_false]
      exact (ih.cons y).trans (List.Perm.swap x y ys)

theorem perm_sortStrings (l : List String) : List.Perm (sortStrings l) l := by
  induction l with
  | nil => simp [sortStrings]
  | cons x xs ih =>
    exact (perm_insertStr x (sortStrings xs)).trans (ih.cons x)

theorem mem_sortStrings {a : String} {l : List String} :
    a ∈ sortStrings l ↔ a ∈ l :=
  (perm_sortStrings l).mem_iff

theorem nodup_sortStrings {l : List String} (h : l.Nodup) :
    (sortStrings l).Nodup :=
  (perm_sortStrings l).nodup_iff.mpr h

theorem pairwise_insertStr {x : String} {l : List String}
    (h : l.Pairwise (fun a b => strLeB a b = true)) :
    (insertStr x l).Pairwise (fun a b => strLeB a b = true) := by
  induction l with
  | nil => simp [insertStr]
  | cons y ys ih =>
    rcases List.pairwise_cons.mp h with ⟨hy, hys⟩
    by_cases hle : strLeB x y = true
    · rw [insertStr, if_pos hle]
      refine List.pairwise_cons.mpr ⟨?_, h⟩
      intro z hz
      rcases List.mem_cons.mp hz with rfl | hz
      · exact hle
      · exact strLeB_trans hle (hy z hz)
    · rw [insertStr, if_neg hle]
      refine List.pairwise_cons.mpr ⟨?_, ih hys⟩
      intro z hz
      have hmem := (perm_insertStr x ys).mem_iff.mp hz
      rcases List.mem_cons.mp hmem with rfl | hz2
      · rcases strLeB_total y z with h2 | h2
        · exact h2
        · exact absurd h2 (by simpa using hle)
      · exact hy z hz2

theorem pairwise_sortStrings (l : List String) :
    (sortStrings l).Pairwise (fun a b => strLeB a b = true) := by
  induction l with
  | nil => simp [sortStrings]
  | cons x xs ih => exact pairwise_insertStr ih

/-! ## posixpath helpers used by plot_growth.py

The catalog stores absolute, already-normalized paths (os.path.join of
os.path.abspath results from os.walk), so the internal os.path.abspath
normalization inside relpath is the identity and is not repeated here. -/

/-- Index of the last occurrence of a character, when there is one. -/
def lastIdxOf (c : Char) (cs : List Char) : Option ℕ :=
  ((cs.enum.filter (fun p => p.2 = c)).map Prod.fst).getLast?

/-- Embedding of posixpath.dirname: everything up to the last slash, with
trailing slashes stripped unless the head is all slashes. -/
def dirname (p : String) : String :=
  match lastIdxOf '/' p.toList with
  | none => ""
  | some i =>
    let head := p.toList.take (i + 1)
    if head.all (fun c => c = '/') then String.mk head
    else String.mk ((head.reverse.dropWhile (fun c => c = '/')).reverse)

/-- Embedding of posixpath.basename: everything after the last slash. -/
def basename (p : String) : String :=
  match lastIdxOf '/' p.toList with
  | none => p
  | some i => String.mk (p.toList.drop (i + 1))

/-- Splits a character list at every slash. -/
def splitSlash : List Char → List (List Char)
  | [] => [[]]
  | c :: rest =>
    if c = '/' then [] :: splitSlash rest
    else
      match splitSlash rest with
      | [] => [[c]]
      | g :: gs => (c :: g) :: gs

/-- Non-empty slash-separated components of a path, as computed inside
posixpath.relpath. -/
def splitComponents (p : String) : List String :=
  ((splitSlash p.toList).map String.mk).filter (fun s => s ≠ "")

/-- Length of the common leading run of two component lists
(os.path.commonprefix on lists). -/
def commonLen : List String → List String → ℕ
  | a :: as, b :: bs => if a = b then commonLen as bs + 1 else 0
  | _, _ => 0

/-- posixpath.join of plain components: interleave slashes. -/
def joinSlash : List String → String
  | [] => ""
  | [s] => s
  | s :: rest => s ++ "/" ++ joinSlash rest

/-- Embedding of posixpath.relpath on absolute normalized inputs: drop the
common leading components, prepend one ".." per remaining component of
start, "." when nothing is left. -/
def relpath (path start : String) : String :=
  let pl := splitComponents path
  let sl := splitComponents start
  let i := commonLen sl pl
  let rel := List.replicate (sl.length - i) ".." ++ pl.drop i
  if rel = [] then "." else joinSlash rel

/-! ## The aggregation pipeline of plot_growth.py (main, lines 44-157) -/

/-- Command-line configuration of plot_growth.py; date_before and
date_after hold the bounds already parsed by datetime.strptime with
"%Y-%m-%d" (lines 78-94), group_by is "month" or "year". -/
structure PlotArgs where
  group_by : String
  date_before : Option Datetime
  date_after : Option Datetime
  group_dirs : Bool
  target_dir : String

/-- One catalog row as fetched by the SELECT of line 65; date_taken is
non-null there (WHERE date_taken IS NOT NULL). -/
structure Row where
  date_taken : String
  file_size : ℕ
  file_path : String
deriving DecidableEq

/-- Zero-padded decimal rendering, as strftime produces for %Y (width 4)
and %m (width 2). -/
def padZeros (width n : ℕ) : String :=
  let s := toString n
  String.mk (List.replicate (width - s.length) '0') ++ s

/-- Bucket label of a parsed date (lines 104-107): strftime "%Y" when
grouping by year, "%Y-%m" otherwise. -/
def bucketKey (group_by : String) (dt : Datetime) : String :=
  if group_by = "year" then padZeros 4 dt.year
  else padZeros 4 dt.year ++ "-" ++ padZeros 2 dt.month

/-- Group label of a row (lines 109-121).  posixpath.relpath raises
ValueError exactly when its path argument is empty, so the caught
ValueError branch (lines 117-119) fires precisely when the dirname is
empty, and then returns basename of that empty dirname. -/
def rowDirectory (args : PlotArgs) (file_path : String) : String :=
  if args.group_dirs then
    let d := dirname file_path
    if d = "" then basename d
    else
      let rel := relpath d args.target_dir
      if rel = "." then "Root" else rel
  else "Total"

/-- Date parsing and filtering of one row (lines 96-102): unparsable
dates are dropped; a row is dropped when its date is not strictly before
date_before or not strictly after date_after. -/
def keptDate (args : PlotArgs) (row : Row) : Option Datetime :=
  match parse_date row.date_taken with
  | none => none
  | some dt =>
    if (match args.date_before with
        | some b => Datetime.leb b dt
        | none => false) then none
    else if (match args.date_after with
        | some a => Datetime.leb dt a
        | none => false) then none
    else some dt

/-- State of the accumulation loop: growth_data as a total function with
the default-zero get semantics of line 126, its key set in first-seen
order, and all_directories. -/
structure Growth where
  total : String → String → ℕ
  keys : List String
  dirs : List String

/-- Initial state: empty growth_data and all_directories (lines 75-76). -/
def emptyGrowth : Growth := Growth.mk (fun _ _ => 0) [] []

/-- One execution of lines 123-127: create the key bucket when new, add
the size at (key, directory), record the directory. -/
def addRow (g : Growth) (key dir : String) (size : ℕ) : Growth :=
  Growth.mk
    (fun k d => if k = key ∧ d = dir then g.total key dir + size else g.total k d)
    (if key ∈ g.keys then g.keys else g.keys ++ [key])
    (if dir ∈ g.dirs then g.dirs else g.dirs ++ [dir])

/-- Body of the row loop (lines 96-127). -/
def processRow (args : PlotArgs) (g : Growth) (row : Row) : Growth :=
  match keptDate args row with
  | none => g
  | some dt =>
    addRow g (bucketKey args.group_by dt) (rowDirectory args row.file_path)
      row.file_size

/-- The whole row loop over the fetched rows. -/
def processRows (args : PlotArgs) (rows : List Row) : Growth :=
  rows.foldl (processRow args) emptyGrowth

/-- sorted(growth_data.keys()) of line 135. -/
def sorted_keys (g : Growth) : List String := sortStrings g.keys

/-- sorted(list(all_directories)) of line 136. -/
def sorted_directories (g : Growth) : List String := sortStrings g.dirs

/-- periodic_data[d] (lines 142-146): per bucket, the accumulated bytes at
(key, d) with default 0, divided by 1024 * 1024.  The Python dict has one
entry per sorted directory; the Lean function extends it by the same
formula to every label. -/
def periodic_data (g : Growth) (d : String) : List ℚ :=
  (sorted_keys g).map (fun k => (g.total k d : ℚ) / (1024 * 1024))

/-- Running byte totals of the cumulative loop (lines 150-157). -/
def runningSums (acc : ℕ) : List ℕ → List ℕ
  | [] => []
  | x :: xs => (acc + x) :: runningSums (acc + x) xs

/-- cumulative_data[d] (lines 150-157): running byte totals per directory
over the sorted keys, each converted to megabytes when appended. -/
def cumulative_data (g : Growth) (d : String) : List ℚ :=
  (runningSums 0 ((sorted_keys g).map (fun k => g.total k d))).map
    (fun (n : ℕ) => (n : ℚ) / (1024 * 1024))

theorem Datetime.ltb_iff (a b : Datetime) :
    Datetime.ltb a b = true ↔
      (a.year < b.year ∨ (a.year = b.year ∧ (a.month < b.month ∨ (a.month = b.month ∧
       (a.day < b.day ∨ (a.day = b.day ∧ (a.hour < b.hour ∨ (a.hour = b.hour ∧
       (a.minute < b.minute ∨ (a.minute = b.minute ∧
        a.second < b.second)))))))))) := by
  unfold Datetime.ltb
  split_ifs <;> simp_all

theorem Datetime.eq_iff (a b : Datetime) :
    a = b ↔ (a.year = b.year ∧ a.month = b.month ∧ a.day = b.day ∧
      a.hour = b.hour ∧ a.minute = b.minute ∧ a.second = b.second) := by
  cases a; cases b; simp [Datetime.mk.injEq]

theorem Datetime.leb_eq_false_iff (a b : Datetime) :
    Datetime.leb a b = false ↔ Datetime.ltb b a = true := by
  simp only [Datetime.leb, Bool.or_eq_false_iff]
  simp only [decide_eq_false_iff_not, ← Bool.not_eq_true]
  simp only [Datetime.ltb_iff, Datetime.eq_iff, decide_eq_true_eq]
  omega

theorem Datetime.leb_refl (a : Datetime) : Datetime.leb a a = true := by
  simp [Datetime.leb]

theorem keptDate_isSome_iff (args : PlotArgs) (row : Row) (dt : Datetime)
    (hp : parse_date row.date_taken = some dt) :
    (keptDate args row).isSome = true ↔
      ((match args.date_before with
        | some b => Datetime.leb b dt
        | none => false) = false ∧
       (match args.date_after with
        | some a => Datetime.leb dt a
        | none => false) = false) := by
  simp only [keptDate, hp]
  split_ifs with h1 h2 <;> simp_all

/-- C2: the filter of plot_growth.py lines 96-102 keeps a parsed row
exactly when its date is strictly earlier than date_before (when given)
and strictly later than date_after (when given); a row whose parsed date
equals either bound is dropped; a kept row keeps its parsed date. -/
theorem date_filter_spec (args : PlotArgs) (row : Row) (dt : Datetime)
    (hp : parse_date row.date_taken = some dt) :
    ((keptDate args row).isSome = true ↔
      ((∀ b, args.date_before = some b → Datetime.ltb dt b = true) ∧
       (∀ a, args.date_after = some a → Datetime.ltb a dt = true)))
    ∧ (keptDate args row = none ∨ keptDate args row = some dt)
    ∧ (args.date_before = some dt → keptDate args row = none)
    ∧ (args.date_after = some dt → keptDate args row = none) := by
  refine ⟨?_, ?_, ?_, ?_⟩
  · rw [keptDate_isSome_iff args row dt hp]
    constructor
    · rintro ⟨hB, hA⟩
      refine ⟨?_, ?_⟩
      · intro b hb
        rw [hb] at hB
        exact (Datetime.leb_eq_false_iff b dt).mp hB
      · intro a ha
        rw [ha] at hA
        exact (Datetime.leb_eq_false_iff dt a).mp hA
    · rintro ⟨hB, hA⟩
      refine ⟨?_, ?_⟩
      · cases hb : args.date_before with
        | none => rfl
        | some b => exact (Datetime.leb_eq_false_iff b dt).mpr (hB b hb)
      · cases ha : args.date_after with
        | none => rfl
        | some a => exact (Datetime.leb_eq_false_iff dt a).mpr (hA a ha)
  · simp only [keptDate, hp]
    split_ifs <;> simp
  · intro hb
    simp [keptDate, hp, hb, Datetime.leb_refl]
  · intro ha
    simp only [keptDate, hp, ha]
    split_ifs <;> simp_all [Datetime.leb_refl]

/-- Witness for date_filter_spec: a row dated exactly at a date_after
bound of 2023-01-01T00:00:00 is excluded, and with both bounds absent a
parsed row is kept. -/
theorem date_filter_spec_witness :
    keptDate (PlotArgs.mk "month" none (some (Datetime.mk 2023 1 1 0 0 0)) false "/p")
      (Row.mk "2023-01-01" 7 "/p/a.jpg") = none
    ∧ (keptDate (PlotArgs.mk "month" none none false "/p")
        (Row.mk "2023-01-01" 7 "/p/a.jpg")).isSome = true := by
  constructor
  · exact (date_filter_spec (PlotArgs.mk "month" none (some (Datetime.mk 2023 1 1 0 0 0))
      false "/p") (Row.mk "2023-01-01" 7 "/p/a.jpg") (Datetime.mk 2023 1 1 0 0 0)
      (by decide)).2.2.2 rfl
  · refine ((date_filter_spec (PlotArgs.mk "month" none none false "/p")
      (Row.mk "2023-01-01" 7 "/p/a.jpg") (Datetime.mk 2023 1 1 0 0 0)
      (by decide)).1).mpr ?_
    exact ⟨fun b hb => by simp at hb, fun a ha => by simp at ha⟩

/-! ## Aggregation lemmas -/

theorem growth_total_fold (args : PlotArgs) (rows : List Row) :
    ∀ (g0 : Growth) (k d : String),
      (rows.foldl (processRow args) g0).total k d =
        g0.total k d +
          ((rows.filter (fun r => Option.any (fun dt =>
              decide (bucketKey args.group_by dt = k) &&
              decide (rowDirectory args r.file_path = d)) (keptDate args r))).map
            Row.file_size).sum := by
  induction rows with
  | nil => intro g0 k d; simp
  | cons r rs ih =>
    intro g0 k d
    rw [List.foldl_cons, ih]
    cases hk : keptDate args r with
    | none =>
      simp [processRow, hk, List.filter_cons, Option.any]
    | some dt =>
      by_cases hc : bucketKey args.group_by dt = k ∧ rowDirectory args r.file_path = d
      · obtain ⟨hc1, hc2⟩ := hc
        subst hc1
        subst hc2
        simp [processRow, hk, List.filter_cons, Option.any, addRow]
        omega
      · have hfalse : (decide (bucketKey args.group_by dt = k) &&
            decide (rowDirectory args r.file_path = d)) = false := by
          rw [Bool.and_eq_false_iff]
          rcases not_and_or.mp hc with h | h
          · exact Or.inl (decide_eq_false_iff_not.mpr h)
          · exact Or.inr (decide_eq_false_iff_not.mpr h)
        have hcond : ¬(k = bucketKey args.group_by dt ∧ d = rowDirectory args r.file_path) :=
          fun h => hc ⟨h.1.symm, h.2.symm⟩
        simp only [processRow, hk, List.filter_cons, Option.any, hfalse, if_false,
          addRow, hcond, Bool.false_eq_true]

theorem mem_addRow_keys (g : Growth) (K D : String) (s : ℕ) (k : String) :
    k ∈ (addRow g K D s).keys ↔ k ∈ g.keys ∨ k = K := by
  simp only [addRow]
  by_cases h : K ∈ g.keys
  · rw [if_pos h]
    constructor
    · exact Or.inl
    · rintro (hk | rfl)
      · exact hk
      · exact h
  · rw [if_neg h]
    simp [List.mem_append]

theorem mem_addRow_dirs (g : Growth) (K D : String) (s : ℕ) (d : String) :
    d ∈ (addRow g K D s).dirs ↔ d ∈ g.dirs ∨ d = D := by
  simp only [addRow]
  by_cases h : D ∈ g.dirs
  · rw [if_pos h]
    constructor
    · exact Or.inl
    · rintro (hd | rfl)
      · exact hd
      · exact h
  · rw [if_neg h]
    simp [List.mem_append]

theorem mem_keys_fold (args : PlotArgs) (rows : List Row) :
    ∀ (g0 : Growth) (k : String),
      k ∈ (rows.foldl (processRow args) g0).keys ↔
        k ∈ g0.keys ∨ ∃ r ∈ rows, ∃ dt, keptDate args r = some dt ∧
          bucketKey args.group_by dt = k := by
  induction rows with
  | nil => intro g0 k; simp
  | cons r rs ih =>
    intro g0 k
    rw [List.foldl_cons, ih]
    cases hk : keptDate args r with
    | none =>
      simp only [processRow, hk, List.mem_cons]
      constructor
      · rintro (h | h)
        · exact Or.inl h
        · obtain ⟨r2, hr2, hrest⟩ := h
          exact Or.inr ⟨r2, Or.inr hr2, hrest⟩
      · rintro (h | ⟨r2, hr2 | hr2, dt, hdt, hbk⟩)
        · exact Or.inl h
        · rw [hr2] at hdt
          rw [hk] at hdt
          exact absurd hdt (by simp)
        · exact Or.inr ⟨r2, hr2, dt, hdt, hbk⟩
    | some dt =>
      simp only [processRow, hk, mem_addRow_keys, List.mem_cons]
      constructor
      · rintro ((h | rfl) | h)
        · exact Or.inl h
        · exact Or.inr ⟨r, Or.inl rfl, dt, hk, rfl⟩
        · obtain ⟨r2, hr2, hrest⟩ := h
          exact Or.inr ⟨r2, Or.inr hr2, hrest⟩
      · rintro (h | ⟨r2, hr2 | hr2, dt2, hdt2, hbk⟩)
        · exact Or.inl (Or.inl h)
        · rw [hr2] at hdt2
          rw [hk] at hdt2
          obtain rfl : dt = dt2 := by injection hdt2
          exact Or.inl (Or.inr hbk.symm)
        · exact Or.inr ⟨r2, hr2, dt2, hdt2, hbk⟩

theorem mem_dirs_fold (args : PlotArgs) (rows : List Row) :
    ∀ (g0 : Growth) (d : String),
      d ∈ (rows.foldl (processRow args) g0).dirs ↔
        d ∈ g0.dirs ∨ ∃ r ∈ rows, (∃ dt, keptDate args r = some dt) ∧
          rowDirectory args r.file_path = d := by
  induction rows with
  | nil => intro g0 d; simp
  | cons r rs ih =>
    intro g0 d
    rw [List.foldl_cons, ih]
    cases hk : keptDate args r with
    | none =>
      simp only [processRow, hk, List.mem_cons]
      constructor
      · rintro (h | h)
        · exact Or.inl h
        · obtain ⟨r2, hr2, hrest⟩ := h
          exact Or.inr ⟨r2, Or.inr hr2, hrest⟩
      · rintro (h | ⟨r2, hr2 | hr2, ⟨dt, hdt⟩, hdir⟩)
        · exact Or.inl h
        · rw [hr2] at hdt
          rw [hk] at hdt
          exact absurd hdt (by simp)
        · exact Or.inr ⟨r2, hr2, ⟨dt, hdt⟩, hdir⟩
    | some dt =>
      simp only [processRow, hk, mem_addRow_dirs, List.mem_cons]
      constructor
      · rintro ((h | rfl) | h)
        · exact Or.inl h
        · exact Or.inr ⟨r, Or.inl rfl, ⟨dt, hk⟩, rfl⟩
        · obtain ⟨r2, hr2, hrest⟩ := h
          exact Or.inr ⟨r2, Or.inr hr2, hrest⟩
      · rintro (h | ⟨r2, hr2 | hr2, ⟨dt2, hdt2⟩, hdir⟩)
        · exact Or.inl (Or.inl h)
        · rw [hr2] at hdir
          exact Or.inl (Or.inr hdir.symm)
        · exact Or.inr ⟨r2, hr2, ⟨dt2, hdt2⟩, hdir⟩

theorem nodup_keys_fold (args : PlotArgs) (rows : List Row) :
    ∀ (g0 : Growth), g0.keys.Nodup → (rows.foldl (processRow args) g0).keys.Nodup := by
  induction rows with
  | nil => intro g0 h; simpa using h
  | cons r rs ih =>
    intro g0 h
    rw [List.foldl_cons]
    apply ih
    cases hk : keptDate args r with
    | none => simpa [processRow, hk] using h
    | some dt =>
      simp only [processRow, hk, addRow]
      split_ifs with hmem
      · exact h
      · simp [List.nodup_append, h, hmem]

theorem nodup_dirs_fold (args : PlotArgs) (rows : List Row) :
    ∀ (g0 : Growth), g0.dirs.Nodup → (rows.foldl (processRow args) g0).dirs.Nodup := by
  induction rows with
  | nil => intro g0 h; simpa using h
  | cons r rs ih =>
    intro g0 h
    rw [List.foldl_cons]
    apply ih
    cases hk : keptDate args r with
    | none => simpa [processRow, hk] using h
    | some dt =>
      simp only [processRow, hk, addRow]
      split_ifs with hmem
      · exact h
      · simp [List.nodup_append, h, hmem]

theorem runningSums_length (xs : List ℕ) : ∀ acc, (runningSums acc xs).length = xs.length := by
  induction xs with
  | nil => intro acc; simp [runningSums]
  | cons x xs ih => intro acc; simp [runningSums, ih]

theorem runningSums_getElem? (xs : List ℕ) :
    ∀ (acc i : ℕ), i < xs.length →
      (runningSums acc xs)[i]? = some (acc + (xs.take (i + 1)).sum) := by
  induction xs with
  | nil => intro acc i h; simp at h
  | cons x xs ih =>
    intro acc i h
    cases i with
    | zero => simp [runningSums]
    | succ n =>
      rw [runningSums, List.getElem?_cons_succ, ih (acc + x) n (by simpa using h),
        List.take_succ_cons, List.sum_cons]
      congr 1
      omega

theorem sum_map_div_rat (c : ℚ) (l : List ℚ) :
    (l.map (fun x => x / c)).sum = l.sum / c := by
  induction l with
  | nil => simp
  | cons x xs ih => simp [ih, add_div]

theorem cast_sum_div (c : ℚ) (l : List ℕ) :
    ((l.sum : ℚ) / c) = (l.map (fun (n : ℕ) => (n : ℚ) / c)).sum := by
  induction l with
  | nil => simp
  | cons x xs ih =>
    simp only [List.sum_cons, List.map_cons, Nat.cast_add]
    rw [add_div, ih]

/-- C1: over arbitrary catalog rows and configuration, the aggregation of
plot_growth.py (lines 96-157) satisfies: the bucket keys are the distinct
buckets of the surviving rows, sorted ascending lexicographically and
duplicate-free; the group labels are the distinct groups of the surviving
rows, sorted ascending lexicographically and duplicate-free; for every
label, the periodic series lists, per sorted bucket, the byte total of
the surviving rows mapping to that bucket and label divided by 1048576
(zero when nothing maps there, and one entry for every combination); and
the cumulative series has the same length and carries at each position
the running sum of that label's periodic values up to that position,
independently of other labels. -/
theorem aggregation_spec (args : PlotArgs) (rows : List Row) (d : String) :
    ((sorted_keys (processRows args rows)).Pairwise (fun a b => strLeB a b = true)
      ∧ (sorted_keys (processRows args rows)).Nodup
      ∧ (∀ k, k ∈ sorted_keys (processRows args rows) ↔
          ∃ r ∈ rows, ∃ dt, keptDate args r = some dt ∧ bucketKey args.group_by dt = k))
    ∧ ((sorted_directories (processRows args rows)).Pairwise (fun a b => strLeB a b = true)
      ∧ (sorted_directories (processRows args rows)).Nodup
      ∧ (∀ dd, dd ∈ sorted_directories (processRows args rows) ↔
          ∃ r ∈ rows, (∃ dt, keptDate args r = some dt) ∧
            rowDirectory args r.file_path = dd))
    ∧ (periodic_data (processRows args rows) d =
        (sorted_keys (processRows args rows)).map (fun k =>
          ((rows.filter (fun r => Option.any (fun dt =>
              decide (bucketKey args.group_by dt = k) &&
              decide (rowDirectory args r.file_path = d)) (keptDate args r))).map
            (fun r => (r.file_size : ℚ))).sum / 1048576))
    ∧ (periodic_data (processRows args rows) d).length
        = (sorted_keys (processRows args rows)).length
    ∧ (cumulative_data (processRows args rows) d).length
        = (sorted_keys (processRows args rows)).length
    ∧ (∀ i, i < (sorted_keys (processRows args rows)).length →
        (cumulative_data (processRows args rows) d)[i]? =
          some (((periodic_data (processRows args rows) d).take (i + 1)).sum)) := by
  have hkeysnd : (processRows args rows).keys.Nodup :=
    nodup_keys_fold args rows emptyGrowth (by simp [emptyGrowth])
  have hdirsnd : (processRows args rows).dirs.Nodup :=
    nodup_dirs_fold args rows emptyGrowth (by simp [emptyGrowth])
  have htot : ∀ k, (processRows args rows).total k d =
      ((rows.filter (fun r => Option.any (fun dt =>
          decide (bucketKey args.group_by dt = k) &&
          decide (rowDirectory args r.file_path = d)) (keptDate args r))).map
        Row.file_size).sum := by
    intro k
    have := growth_total_fold args rows emptyGrowth k d
    simpa [processRows, emptyGrowth] using this
  refine ⟨⟨pairwise_sortStrings _, nodup_sortStrings hkeysnd, ?_⟩,
    ⟨pairwise_sortStrings _, nodup_sortStrings hdirsnd, ?_⟩, ?_, ?_, ?_, ?_⟩
  · intro k
    rw [sorted_keys, mem_sortStrings]
    have := mem_keys_fold args rows emptyGrowth k
    simpa [processRows, emptyGrowth] using this
  · intro dd
    rw [sorted_directories, mem_sortStrings]
    have := mem_dirs_fold args rows emptyGrowth dd
    simpa [processRows, emptyGrowth] using this
  · rw [periodic_data]
    apply List.map_congr_left
    intro k _
    rw [htot k]
    rw [Nat.cast_list_sum, List.map_map]
    norm_num [Function.comp_def]
  · rw [periodic_data, List.length_map]
  · rw [cumulative_data, List.length_map, runningSums_length, List.length_map]
  · intro i hi
    rw [cumulative_data, List.getElem?_map, runningSums_getElem? _ 0 i
      (by rwa [List.length_map]), Option.map_some']
    rw [periodic_data, ← List.map_take, ← List.map_take]
    rw [show (fun k => (((processRows args rows).total k d : ℕ) : ℚ) / (1024 * 1024)) =
      (fun (n : ℕ) => (n : ℚ) / (1024 * 1024)) ∘
        (fun k => (processRows args rows).total k d) from rfl]
    rw [← List.map_map, ← cast_sum_div]
    norm_num

/-- Concrete input for the aggregation witnesses. -/
def witnessArgs : PlotArgs := PlotArgs.mk "month" none none true "/r"

/-- Concrete rows for the aggregation witnesses. -/
def witnessRows : List Row :=
  [Row.mk "2023:01:05 10:00:00" 1048576 "/r/A/x.jpg",
   Row.mk "2023-02-01" 2097152 "/r/y.jpg",
   Row.mk "bad date" 512 "/r/A/z.jpg"]

/-- Witness for aggregation_spec: applies it at a concrete configuration
and rows, discharging the membership and index hypotheses there. -/
theorem aggregation_spec_witness :
    (0 < (sorted_keys (processRows witnessArgs witnessRows)).length
      ∧ (cumulative_data (processRows witnessArgs witnessRows) "A")[0]? =
          some (((periodic_data (processRows witnessArgs witnessRows) "A").take 1).sum))
    ∧ ("2023-01" ∈ sorted_keys (processRows witnessArgs witnessRows) ↔
        ∃ r ∈ witnessRows, ∃ dt, keptDate witnessArgs r = some dt ∧
          bucketKey witnessArgs.group_by dt = "2023-01") := by
  refine ⟨⟨by decide, ?_⟩, ?_⟩
  · exact (aggregation_spec witnessArgs witnessRows "A").2.2.2.2.2 0 (by decide)
  · exact (aggregation_spec witnessArgs witnessRows "A").1.2.2 "2023-01"

/-! ## The textual fallback of plot_growth.py (lines 199-210) -/

/-- Models the two-decimal formatting "{total:.2f}" of the fallback print
(plot_growth.py lines 205 and 210): the printed number is the value
rounded to two decimal places.  (CPython rounds the shortest-decimal
reading of the binary float half-to-even; the theorems below exercise no
tie and no float-representation discrepancy.) -/
def roundTo2 (x : ℚ) : ℚ := (round (x * 100) : ℚ) / 100

/-- One fallback block (lines 203-205, and 208-210): for each sorted key
in order, one printed line carrying the key and the sum of the given
series over all sorted directories at that index, rounded for printing. -/
def fallbackLines (g : Growth) (data : String → List ℚ) : List (String × ℚ) :=
  (sorted_keys g).enum.map (fun p =>
    (p.2, roundTo2 (((sorted_directories g).map (fun d => (data d).getD p.1 0)).sum)))

/-- The Cumulative Totals fallback block (lines 202-205). -/
def fallbackCumulative (g : Growth) : List (String × ℚ) :=
  fallbackLines g (cumulative_data g)

/-- The periodic Totals fallback block (lines 207-210). -/
def fallbackPeriodic (g : Growth) : List (String × ℚ) :=
  fallbackLines g (periodic_data g)

theorem optionAny_and (o : Option Datetime) (f : Datetime → Bool) (b : Bool) :
    Option.any (fun dt => f dt && b) o = (Option.any f o && b) := by
  cases o <;> simp [Option.any]

theorem sum_map_if_mem {dirs : List String} {x : String} (s : ℕ)
    (hnd : dirs.Nodup) (hx : x ∈ dirs) :
    (dirs.map (fun d => if x = d then s else 0)).sum = s := by
  induction dirs with
  | nil => simp at hx
  | cons d ds ih =>
    rcases List.mem_cons.mp hx with rfl | hx2
    · have hnotin : x ∉ ds := (List.nodup_cons.mp hnd).1
      have : (ds.map (fun d => if x = d then s else 0)).sum = 0 := by
        rw [List.sum_eq_zero]
        intro y hy
        obtain ⟨d2, hd2, rfl⟩ := List.mem_map.mp hy
        rw [if_neg]
        intro h
        exact hnotin (h ▸ hd2)
      simp [this]
    · have hne : d ≠ x := by
        intro h
        exact (List.nodup_cons.mp hnd).1 (h ▸ hx2)
      rw [List.map_cons, List.sum_cons, if_neg (fun h => hne h.symm),
        ih (List.nodup_cons.mp hnd).2 hx2]
      omega

theorem sum_map_filter_partition (dirs : List String)
    (p : Row → Bool) (dirOf : Row → String) (hnd : dirs.Nodup) :
    ∀ rows : List Row, (∀ r ∈ rows, p r = true → dirOf r ∈ dirs) →
      (dirs.map (fun d =>
          ((rows.filter (fun r => p r && decide (dirOf r = d))).map
            Row.file_size).sum)).sum
        = ((rows.filter p).map Row.file_size).sum := by
  intro rows
  induction rows with
  | nil => intro _; simp
  | cons r rs ih =>
    intro hcov
    have hcov2 : ∀ r2 ∈ rs, p r2 = true → dirOf r2 ∈ dirs := by
      intro r2 h2 hp2
      exact hcov r2 (List.mem_cons.mpr (Or.inr h2)) hp2
    by_cases hp : p r = true
    · have hsplit : ∀ d, (List.filter (fun r2 => p r2 && decide (dirOf r2 = d)) (r :: rs)) =
          (if dirOf r = d then r :: List.filter (fun r2 => p r2 && decide (dirOf r2 = d)) rs
           else List.filter (fun r2 => p r2 && decide (dirOf r2 = d)) rs) := by
        intro d
        rw [List.filter_cons]
        by_cases hd : dirOf r = d
        · simp [hp, hd]
        · simp [hp, hd]
      have hstep : ∀ d, ((List.filter (fun r2 => p r2 && decide (dirOf r2 = d)) (r :: rs)).map
          Row.file_size).sum =
          (if dirOf r = d then r.file_size else 0) +
            ((List.filter (fun r2 => p r2 && decide (dirOf r2 = d)) rs).map
              Row.file_size).sum := by
        intro d
        rw [hsplit d]
        by_cases hd : dirOf r = d
        · simp [hd]
        · simp [hd]
      calc (dirs.map (fun d => ((List.filter (fun r2 => p r2 && decide (dirOf r2 = d))
              (r :: rs)).map Row.file_size).sum)).sum
          = (dirs.map (fun d => (if dirOf r = d then r.file_size else 0) +
              ((List.filter (fun r2 => p r2 && decide (dirOf r2 = d)) rs).map
                Row.file_size).sum)).sum := by
            apply congrArg
            exact List.map_congr_left (fun d _ => hstep d)
        _ = (dirs.map (fun d => if dirOf r = d then r.file_size else 0)).sum +
              (dirs.map (fun d => ((List.filter (fun r2 => p r2 && decide (dirOf r2 = d))
                rs).map Row.file_size).sum)).sum := by
            rw [← List.sum_map_add]
        _ = r.file_size + ((rs.filter p).map Row.file_size).sum := by
            rw [ih hcov2, sum_map_if_mem r.file_size hnd
              (hcov r (List.mem_cons.mpr (Or.inl rfl)) hp)]
      rw [List.filter_cons, if_pos (by simpa using hp), List.map_cons, List.sum_cons]
    · have hfalse : ∀ d, (p r && decide (dirOf r = d)) = false := by
        intro d
        rw [Bool.and_eq_false_iff]
        exact Or.inl (by simpa using hp)
      have : ∀ d, List.filter (fun r2 => p r2 && decide (dirOf r2 = d)) (r :: rs) =
          List.filter (fun r2 => p r2 && decide (dirOf r2 = d)) rs := by
        intro d
        rw [List.filter_cons, if_neg (by simp [hfalse d])]
      calc (dirs.map (fun d => ((List.filter (fun r2 => p r2 && decide (dirOf r2 = d))
              (r :: rs)).map Row.file_size).sum)).sum
          = (dirs.map (fun d => ((List.filter (fun r2 => p r2 && decide (dirOf r2 = d))
              rs).map Row.file_size).sum)).sum := by
            apply congrArg
            exact List.map_congr_left (fun d _ => by rw [this d])
        _ = ((rs.filter p).map Row.file_size).sum := ih hcov2
        _ = (((r :: rs).filter p).map Row.file_size).sum := by
            rw [List.filter_cons, if_neg (by simpa using hp)]

theorem sum_map_swap {α β : Type} (A : List α) (B : List β) (f : α → β → ℕ) :
    (A.map (fun a => (B.map (f a)).sum)).sum =
      (B.map (fun b => (A.map (fun a => f a b)).sum)).sum := by
  induction A with
  | nil => simp
  | cons a as ih =>
    rw [List.map_cons, List.sum_cons, ih, ← List.sum_map_add]
    refine congrArg List.sum (List.map_congr_left ?_)
    intro b _
    rw [List.map_cons, List.sum_cons]

/-- C9 (amended): the textual fallback prints, for each sorted bucket key
and for each of the two views, one line whose number is the total across
all groups of that view at that key — equal, for the periodic view, to
the byte sum of all surviving rows of the bucket divided by 1048576 and,
for the cumulative view, to the running sum of those per-bucket totals —
rounded to two decimal places; it does not print per-group lines. -/
theorem fallback_totals_spec (args : PlotArgs) (rows : List Row) (i : ℕ)
    (hi : i < (sorted_keys (processRows args rows)).length) :
    (fallbackPeriodic (processRows args rows))[i]? =
      some ((sorted_keys (processRows args rows)).getD i "",
        roundTo2 (((rows.filter (fun r => Option.any (fun dt =>
            decide (bucketKey args.group_by dt =
              (sorted_keys (processRows args rows)).getD i "")) (keptDate args r))).map
          (fun r => (r.file_size : ℚ))).sum / 1048576))
    ∧ (fallbackCumulative (processRows args rows))[i]? =
      some ((sorted_keys (processRows args rows)).getD i "",
        roundTo2 ((((sorted_keys (processRows args rows)).take (i + 1)).map (fun k =>
          ((rows.filter (fun r => Option.any (fun dt =>
              decide (bucketKey args.group_by dt = k)) (keptDate args r))).map
            (fun r => (r.file_size : ℚ))).sum / 1048576)).sum)) := by
  have hdirsnd : (sorted_directories (processRows args rows)).Nodup :=
    nodup_sortStrings (nodup_dirs_fold args rows emptyGrowth (by simp [emptyGrowth]))
  have htot : ∀ k d, (processRows args rows).total k d =
      ((rows.filter (fun r => Option.any (fun dt =>
          decide (bucketKey args.group_by dt = k) &&
          decide (rowDirectory args r.file_path = d)) (keptDate args r))).map
        Row.file_size).sum := by
    intro k d
    have := growth_total_fold args rows emptyGrowth k d
    simpa [processRows, emptyGrowth] using this
  have hdirsum : ∀ k,
      ((sorted_directories (processRows args rows)).map
        (fun d => (processRows args rows).total k d)).sum =
      ((rows.filter (fun r => Option.any (fun dt =>
          decide (bucketKey args.group_by dt = k)) (keptDate args r))).map
        Row.file_size).sum := by
    intro k
    have hstep : (sorted_directories (processRows args rows)).map
        (fun d => (processRows args rows).total k d) =
        (sorted_directories (processRows args rows)).map (fun d =>
          ((rows.filter (fun r => (Option.any (fun dt =>
              decide (bucketKey args.group_by dt = k)) (keptDate args r)) &&
              decide (rowDirectory args r.file_path = d))).map Row.file_size).sum) := by
      apply List.map_congr_left
      intro d _
      rw [htot k d]
      apply congrArg
      apply congrArg
      apply List.filter_congr
      intro r _
      exact optionAny_and (keptDate args r) _ _
    rw [hstep]
    apply sum_map_filter_partition _ _ _ hdirsnd
    intro r hr hp
    have hsome : ∃ dt, keptDate args r = some dt := by
      cases hk : keptDate args r with
      | none => rw [hk] at hp; simp [Option.any] at hp
      | some dt => exact ⟨dt, rfl⟩
    rw [sorted_directories, mem_sortStrings, processRows]
    exact (mem_dirs_fold args rows emptyGrowth _).mpr
      (Or.inr ⟨r, hr, hsome, rfl⟩)
  have hKi : (sorted_keys (processRows args rows))[i]? =
      some ((sorted_keys (processRows args rows)).getD i "") := by
    rw [List.getElem?_eq_getElem hi, List.getD_eq_getElem?_getD,
      List.getElem?_eq_getElem hi]
    rfl
  have hfb : ∀ data : String → List ℚ,
      (fallbackLines (processRows args rows) data)[i]? =
        some ((sorted_keys (processRows args rows)).getD i "",
          roundTo2 (((sorted_directories (processRows args rows)).map
            (fun d => (data d).getD i 0)).sum)) := by
    intro data
    rw [fallbackLines, List.getElem?_map, List.getElem?_enum, hKi,
      Option.map_some', Option.map_some']
  have hpergetD : ∀ d, (periodic_data (processRows args rows) d).getD i 0 =
      (((processRows args rows).total
        ((sorted_keys (processRows args rows)).getD i "") d : ℚ) / (1024 * 1024)) := by
    intro d
    rw [periodic_data, List.getD_eq_getElem?_getD, List.getElem?_map, hKi,
      Option.map_some']
    rfl
  have hcumgetD : ∀ d, (cumulative_data (processRows args rows) d).getD i 0 =
      (((((sorted_keys (processRows args rows)).take (i + 1)).map
        (fun k => (processRows args rows).total k d)).sum : ℚ) / (1024 * 1024)) := by
    intro d
    rw [cumulative_data, List.getD_eq_getElem?_getD, List.getElem?_map,
      runningSums_getElem? _ 0 i (by rwa [List.length_map]), Option.map_some']
    rw [← List.map_take]
    norm_num [Option.getD]
  constructor
  · rw [fallbackPeriodic, hfb]
    apply congrArg
    apply congrArg
    apply congrArg
    rw [List.map_congr_left (fun d _ => hpergetD d)]
    rw [show (fun d => (((processRows args rows).total
        ((sorted_keys (processRows args rows)).getD i "") d : ℕ) : ℚ) / (1024 * 1024)) =
      (fun (n : ℕ) => (n : ℚ) / (1024 * 1024)) ∘
        (fun d => (processRows args rows).total
          ((sorted_keys (processRows args rows)).getD i "") d) from rfl]
    rw [← List.map_map, ← cast_sum_div, hdirsum]
    rw [show (fun r : Row => (r.file_size : ℚ)) = Nat.cast ∘ Row.file_size from rfl]
    rw [← List.map_map, ← Nat.cast_list_sum]
    norm_num
  · rw [fallbackCumulative, hfb]
    apply congrArg
    apply congrArg
    apply congrArg
    rw [List.map_congr_left (fun d _ => hcumgetD d)]
    rw [show (fun d => (((((sorted_keys (processRows args rows)).take (i + 1)).map
        (fun k => (processRows args rows).total k d)).sum : ℕ) : ℚ) / (1024 * 1024)) =
      (fun (n : ℕ) => (n : ℚ) / (1024 * 1024)) ∘
        (fun d => (((sorted_keys (processRows args rows)).take (i + 1)).map
          (fun k => (processRows args rows).total k d)).sum) from rfl]
    rw [← List.map_map, ← cast_sum_div]
    rw [sum_map_swap (sorted_directories (processRows args rows))
      ((sorted_keys (processRows args rows)).take (i + 1))
      (fun d k => (processRows args rows).total k d)]
    rw [List.map_congr_left (fun k _ => hdirsum k)]
    have hsplit : (fun k => ((rows.filter (fun r => Option.any (fun dt =>
        decide (bucketKey args.group_by dt = k)) (keptDate args r))).map
          (fun r => (r.file_size : ℚ))).sum / 1048576) =
      (fun (n : ℕ) => (n : ℚ) / 1048576) ∘ (fun k => ((rows.filter (fun r =>
        Option.any (fun dt => decide (bucketKey args.group_by dt = k))
          (keptDate args r))).map Row.file_size).sum) := by
      funext k
      rw [show (fun r : Row => (r.file_size : ℚ)) = Nat.cast ∘ Row.file_size from rfl]
      rw [← List.map_map, ← Nat.cast_list_sum]
      simp [Function.comp_def]
    rw [hsplit, ← List.map_map, ← cast_sum_div]
    norm_num

/-- Concrete grouped configuration for the fallback counterexample. -/
def cexArgsGroups : PlotArgs := PlotArgs.mk "month" none none true "/r"

/-- Two same-month rows in directories A and B for the counterexample. -/
def cexRowsGroups : List Row :=
  [Row.mk "2023-05-01" 1048576 "/r/A/x.jpg",
   Row.mk "2023-05-01" 2097152 "/r/B/y.jpg"]

/-- Ungrouped configuration for the rounding counterexample. -/
def cexArgsRound : PlotArgs := PlotArgs.mk "month" none none false "/r"

/-- A one-byte row whose megabyte value needs more than two decimals. -/
def cexRowsRound : List Row := [Row.mk "2023-05-01" 1 "/r/x.jpg"]

/-- C9 is false as stated: with directory grouping active the fallback
does not print the per-group series — group A's chart value is 1 MB and
group B's is 2 MB, yet the only printed line carries their sum 3 — and
the printed numbers are rounded to two decimals, unlike the chart data:
a one-byte collection plots as 1/1048576 MB but prints as 0. -/
theorem fallback_groupwise_cex :
    sorted_directories (processRows cexArgsGroups cexRowsGroups) = ["A", "B"]
    ∧ periodic_data (processRows cexArgsGroups cexRowsGroups) "A" = [1]
    ∧ periodic_data (processRows cexArgsGroups cexRowsGroups) "B" = [2]
    ∧ fallbackPeriodic (processRows cexArgsGroups cexRowsGroups) = [("2023-05", 3)]
    ∧ ((3 : ℚ) ≠ 1 ∧ (3 : ℚ) ≠ 2)
    ∧ periodic_data (processRows cexArgsRound cexRowsRound) "Total" = [1 / 1048576]
    ∧ fallbackPeriodic (processRows cexArgsRound cexRowsRound) = [("2023-05", 0)]
    ∧ (0 : ℚ) ≠ 1 / 1048576 := by
  have hsk : sorted_keys (processRows cexArgsGroups cexRowsGroups) = ["2023-05"] := by
    decide
  have hsd : sorted_directories (processRows cexArgsGroups cexRowsGroups) = ["A", "B"] := by
    decide
  have htA : (processRows cexArgsGroups cexRowsGroups).total "2023-05" "A" = 1048576 := by
    decide
  have htB : (processRows cexArgsGroups cexRowsGroups).total "2023-05" "B" = 2097152 := by
    decide
  have hpA : periodic_data (processRows cexArgsGroups cexRowsGroups) "A" = [1] := by
    rw [periodic_data, hsk, List.map_cons, List.map_nil, htA]
    norm_num
  have hpB : periodic_data (processRows cexArgsGroups cexRowsGroups) "B" = [2] := by
    rw [periodic_data, hsk, List.map_cons, List.map_nil, htB]
    norm_num
  have hsk2 : sorted_keys (processRows cexArgsRound cexRowsRound) = ["2023-05"] := by
    decide
  have hsd2 : sorted_directories (processRows cexArgsRound cexRowsRound) = ["Total"] := by
    decide
  have ht2 : (processRows cexArgsRound cexRowsRound).total "2023-05" "Total" = 1 := by
    decide
  have hp2 : periodic_data (processRows cexArgsRound cexRowsRound) "Total" = [1 / 1048576] := by
    rw [periodic_data, hsk2, List.map_cons, List.map_nil, ht2]
    norm_num
  refine ⟨hsd, hpA, hpB, ?_, by norm_num, hp2, ?_, by norm_num⟩
  · rw [fallbackPeriodic, fallbackLines, hsk, hsd]
    simp only [List.enum, List.enumFrom, List.map_cons, List.map_nil, hpA, hpB]
    norm_num [roundTo2, round_eq]
  · rw [fallbackPeriodic, fallbackLines, hsk2, hsd2]
    simp only [List.enum, List.enumFrom, List.map_cons, List.map_nil, hp2]
    norm_num [roundTo2, round_eq]

/-- Witness for fallback_totals_spec: applies it at the concrete grouped
input with index 0, discharging the index bound there. -/
theorem fallback_totals_spec_witness :
    0 < (sorted_keys (processRows cexArgsGroups cexRowsGroups)).length
    ∧ (fallbackPeriodic (processRows cexArgsGroups cexRowsGroups))[0]? =
      some ((sorted_keys (processRows cexArgsGroups cexRowsGroups)).getD 0 "",
        roundTo2 (((cexRowsGroups.filter (fun r => Option.any (fun dt =>
            decide (bucketKey cexArgsGroups.group_by dt =
              (sorted_keys (processRows cexArgsGroups cexRowsGroups)).getD 0 ""))
            (keptDate cexArgsGroups r))).map
          (fun r => (r.file_size : ℚ))).sum / 1048576)) :=
  ⟨by decide, (fallback_totals_spec cexArgsGroups cexRowsGroups 0 (by decide)).1⟩

/-! ## index_pictures.py: metadata extractors (lines 28-85)

Both extractors wrap everything in try/except Exception and are therefore
total; every caught exception is a none branch of the model. -/

/-- Lookup of one tag in an EXIF dictionary (numeric tags to string
values, one entry per tag, as PIL getexif yields). -/
def exifLookup (e : List (ℕ × String)) (tag : ℕ) : Option String :=
  (e.find? (fun p => p.1 = tag)).map Prod.snd

/-- Embedding of get_date_taken (lines 28-47).  The argument models the
outcome of Image.open + getexif: none when opening or reading raises (the
caught exception), some e for a read dictionary (possibly empty; an empty
dictionary is falsy, line 36). -/
def get_date_taken (img : Option (List (ℕ × String))) : Option String :=
  match img with
  | none => none
  | some exif =>
    if exif = [] then none
    else
      match exifLookup exif 36867 with
      | some v => some v
      | none =>
        match exifLookup exif 306 with
        | some v => some v
        | none => none

/-- One ffprobe stream object: its "tags" mapping when present. -/
structure FfprobeStream where
  tags : Option (List (String × String))
deriving DecidableEq

/-- The parsed ffprobe JSON document: the "format"/"tags" mapping when the
format object and its tags are present, and the "streams" array when
present. -/
structure FfprobeData where
  format_tags : Option (List (String × String))
  streams : Option (List FfprobeStream)
deriving DecidableEq

/-- Outcome of the subprocess.run + json.loads pair: failure models a
raised exception from subprocess.run; exited carries the return code and
the parsed stdout (none when json.loads raises on unparsable output). -/
inductive ProbeResult where
  | failure : ProbeResult
  | exited : ℤ → Option FfprobeData → ProbeResult
deriving DecidableEq

/-- Lookup of one key in a string-keyed tags mapping. -/
def tagsLookup (tags : Option (List (String × String))) (key : String) : Option String :=
  tags.bind (fun l => (l.find? (fun p => p.1 = key)).map Prod.snd)

/-- Embedding of get_video_date_taken (lines 52-85): none on process
failure, non-zero exit, or unparsable output; else the container-level
creation_time when present; else the first stream in order exposing one;
else none. -/
def get_video_date_taken (p : ProbeResult) : Option String :=
  match p with
  | ProbeResult.failure => none
  | ProbeResult.exited returncode out =>
    if returncode ≠ 0 then none
    else
      match out with
      | none => none
      | some data =>
        match tagsLookup data.format_tags "creation_time" with
        | some v => some v
        | none =>
          match data.streams with
          | some ss => ss.findSome? (fun s => tagsLookup s.tags "creation_time")
          | none => none

/-! ## index_pictures.py: the reconciliation scan (main, lines 87-173) -/

/-- Recognized image extensions (line 119). -/
def image_extensions : List String :=
  [".jpg", ".jpeg", ".png", ".tiff", ".bmp", ".gif", ".webp"]

/-- Recognized video extensions (line 120). -/
def video_extensions : List String :=
  [".mp4", ".mov", ".avi", ".mkv", ".3gp"]

/-- Embedding of os.path.splitext applied to a bare file name (line 125):
the extension starts at the last dot, unless every character before that
dot is itself a dot (leading dots are not extensions). -/
def splitextExt (name : String) : String :=
  match lastIdxOf '.' name.toList with
  | none => ""
  | some i =>
    if (name.toList.take i).any (fun c => c ≠ '.') then
      String.mk (name.toList.drop i)
    else ""

/-- One file met by the os.walk traversal: its bare name, its joined full
path, the os.path.getsize outcome (readable flag and size), and the
dictionaries the two metadata extractors would see for it. -/
structure FsFile where
  name : String
  path : String
  size : ℕ
  readable : Bool
  exif : Option (List (ℕ × String))
  probe : ProbeResult
deriving DecidableEq

/-- ASCII lowering of one character: Python str.lower restricted to the
ASCII range, which covers every recognized extension. -/
def charLower (c : Char) : Char :=
  if 65 ≤ c.toNat ∧ c.toNat ≤ 90 then Char.ofNat (c.toNat + 32) else c

/-- ASCII string lowering, modeling the .lower() call of line 125. -/
def strLower (s : String) : String := String.mk (s.toList.map charLower)

/-- Extension of a file as computed on line 125. -/
def extOf (f : FsFile) : String := strLower (splitextExt f.name)

/-- The line-126 recognition test. -/
def recognizedF (f : FsFile) : Bool :=
  extOf f ∈ image_extensions || extOf f ∈ video_extensions

/-- The date the scan stores for a recognized file (lines 138-141). -/
def dateOf (f : FsFile) : Option String :=
  if extOf f ∈ image_extensions then get_date_taken f.exif
  else get_video_date_taken f.probe

/-- One row of the pictures table. -/
structure CatRow where
  file_path : String
  file_size : ℕ
  date_taken : Option String
deriving DecidableEq

/-- The pictures table: one row per primary key file_path (scans keep the
keys pairwise distinct; theorems assume it of their inputs). -/
abbrev Catalog : Type := List CatRow

/-- INSERT OR REPLACE INTO pictures (lines 143-146): replace the row
holding the key when present, append a fresh row otherwise. -/
def upsert (c : Catalog) (p : String) (sz : ℕ) (dt : Option String) : Catalog :=
  if c.any (fun r => r.file_path = p) then
    c.map (fun r => if r.file_path = p then CatRow.mk p sz dt else r)
  else c ++ [CatRow.mk p sz dt]

/-- DELETE FROM pictures WHERE file_path = p (line 160). -/
def deleteRow (c : Catalog) (p : String) : Catalog :=
  c.filter (fun r => r.file_path ≠ p)

/-- Observable side effects of the scan: log lines and commits. -/
inductive Event where
  | commit : Event
  | msg : String → Event
deriving DecidableEq

/-- State of the walk loop (lines 122-151): the catalog being written,
found_files in encounter order, the running count and the emitted
events. -/
structure ScanState where
  catalog : Catalog
  found : List String
  count : ℕ
  events : List Event

/-- Body of the walk loop for one file (lines 124-151): unrecognized
extensions are skipped; a recognized path joins found_files before the
size read; an unreadable size is reported and skips only this file; an
upsert bumps the count and every hundredth one logs and commits. -/
def processFile (st : ScanState) (f : FsFile) : ScanState :=
  if recognizedF f then
    let found := st.found ++ [f.path]
    if f.readable then
      let count := st.count + 1
      ScanState.mk (upsert st.catalog f.path f.size (dateOf f)) found count
        (st.events ++ (if count % 100 = 0 then
          [Event.msg ("Indexed " ++ toString count ++ " pictures..."), Event.commit]
          else []))
    else
      ScanState.mk st.catalog found st.count
        (st.events ++ [Event.msg ("Could not read size for " ++ f.path)])
  else st

/-- The whole walk (lines 123-151) started from the line 114-117 state. -/
def scanFiles (c : Catalog) (fs : List FsFile) : ScanState :=
  fs.foldl processFile (ScanState.mk c [] 0 [])

/-- The pruning phase (lines 156-164): drop every path in existing minus
found, commit once after the deletions and report the count; report
explicitly when nothing was deleted. -/
def prunePhase (cat : Catalog) (existing found : List String) : Catalog × List Event :=
  let deleted := existing.filter (fun p => p ∉ found)
  if deleted ≠ [] then
    (deleted.foldl deleteRow cat,
     [Event.msg ("Found " ++ toString deleted.length ++
        " deleted files. Removing from database..."),
      Event.commit,
      Event.msg ("Removed " ++ toString deleted.length ++ " entries.")])
  else (cat, [Event.msg "No deleted files found."])

/-- One whole run of main over an open catalog (lines 114-164): read the
existing keys, walk, final commit and report, then prune. -/
def reconcileFull (c : Catalog) (fs : List FsFile) : Catalog × List Event :=
  let existing := c.map (fun r => r.file_path)
  let st := scanFiles c fs
  let pruned := prunePhase st.catalog existing st.found
  (pruned.1,
   st.events ++ [Event.commit,
     Event.msg ("Done. Indexed " ++ toString st.count ++ " pictures.")] ++ pruned.2)

/-- The catalog contents after one run. -/
def reconcile (c : Catalog) (fs : List FsFile) : Catalog :=
  (reconcileFull c fs).1

/-- SELECT by key: the stored (size, date) of a path, if any. -/
def lookupCat (c : Catalog) (p : String) : Option (ℕ × Option String) :=
  (c.find? (fun r => r.file_path = p)).map (fun r => (r.file_size, r.date_taken))

/-- Key distinctness of a catalog. -/
abbrev NodupKeys (c : Catalog) : Prop := (c.map (fun r => r.file_path)).Nodup

/-- C8: the extractors are total functions into Option (every caught
exception is a none branch, so they never raise); the image variant
prefers tag 36867 over tag 306 and returns none when both are absent or
the dictionary is absent or unreadable; the video variant returns none on
process failure, non-zero exit, or unparsable output, else the
container-level creation_time, else the creation_time of the first
stream in order exposing one, else none. -/
theorem metadata_extractors_spec :
    get_date_taken none = none
    ∧ (∀ e v, exifLookup e 36867 = some v → get_date_taken (some e) = some v)
    ∧ (∀ e v, exifLookup e 36867 = none → exifLookup e 306 = some v →
        get_date_taken (some e) = some v)
    ∧ (∀ e, exifLookup e 36867 = none → exifLookup e 306 = none →
        get_date_taken (some e) = none)
    ∧ get_video_date_taken ProbeResult.failure = none
    ∧ (∀ rc out, rc ≠ 0 → get_video_date_taken (ProbeResult.exited rc out) = none)
    ∧ get_video_date_taken (ProbeResult.exited 0 none) = none
    ∧ (∀ d v, tagsLookup d.format_tags "creation_time" = some v →
        get_video_date_taken (ProbeResult.exited 0 (some d)) = some v)
    ∧ (∀ tags pre s post v, tagsLookup tags "creation_time" = none →
        (∀ s2 ∈ pre, tagsLookup s2.tags "creation_time" = none) →
        tagsLookup s.tags "creation_time" = some v →
        get_video_date_taken (ProbeResult.exited 0
          (some (FfprobeData.mk tags (some (pre ++ s :: post))))) = some v)
    ∧ (∀ d, tagsLookup d.format_tags "creation_time" = none → d.streams = none →
        get_video_date_taken (ProbeResult.exited 0 (some d)) = none)
    ∧ (∀ tags ss, tagsLookup tags "creation_time" = none →
        (∀ s ∈ ss, tagsLookup s.tags "creation_time" = none) →
        get_video_date_taken (ProbeResult.exited 0
          (some (FfprobeData.mk tags (some ss)))) = none) := by
  refine ⟨rfl, ?_, ?_, ?_, rfl, ?_, rfl, ?_, ?_, ?_, ?_⟩
  · intro e v h
    have he : e ≠ [] := by
      intro he
      rw [he] at h
      simp [exifLookup] at h
    simp [get_date_taken, he, h]
  · intro e v h1 h2
    have he : e ≠ [] := by
      intro he
      rw [he] at h2
      simp [exifLookup] at h2
    simp [get_date_taken, he, h1, h2]
  · intro e h1 h2
    by_cases he : e = []
    · simp [get_date_taken, he]
    · simp [get_date_taken, he, h1, h2]
  · intro rc out h
    simp [get_video_date_taken, h]
  · intro d v h
    simp [get_video_date_taken, h]
  · intro tags pre s post v h1 h2 h3
    have hpre : List.findSome? (fun s2 => tagsLookup s2.tags "creation_time") pre = none :=
      List.findSome?_eq_none_iff.mpr h2
    simp only [get_video_date_taken, h1]
    rw [if_neg (by simp)]
    rw [List.findSome?_append, hpre, List.findSome?_cons, h3]
    rfl
  · intro d h1 h2
    simp [get_video_date_taken, h1, h2]
  · intro tags ss h1 h2
    have hss : List.findSome? (fun s2 => tagsLookup s2.tags "creation_time") ss = none :=
      List.findSome?_eq_none_iff.mpr h2
    simp [get_video_date_taken, h1, hss]

/-- Witness for metadata_extractors_spec: its conditional conjuncts
applied at concrete dictionaries and probe outputs. -/
theorem metadata_extractors_spec_witness :
    get_date_taken (some [(36867, "2023:05:01 10:00:00"), (306, "2024:01:01 00:00:00")])
      = some "2023:05:01 10:00:00"
    ∧ get_date_taken (some [(306, "2024:01:01 00:00:00")]) = some "2024:01:01 00:00:00"
    ∧ get_date_taken (some [(271, "maker")]) = none
    ∧ get_video_date_taken (ProbeResult.exited 1 none) = none
    ∧ get_video_date_taken (ProbeResult.exited 0
        (some (FfprobeData.mk (some [("creation_time", "2020-01-01T00:00:00Z")]) none)))
      = some "2020-01-01T00:00:00Z"
    ∧ get_video_date_taken (ProbeResult.exited 0
        (some (FfprobeData.mk none (some [FfprobeStream.mk none,
          FfprobeStream.mk (some [("creation_time", "2021-06-01T12:00:00Z")])]))))
      = some "2021-06-01T12:00:00Z"
    ∧ get_video_date_taken (ProbeResult.exited 0 (some (FfprobeData.mk none none))) = none := by
  refine ⟨?_, ?_, ?_, ?_, ?_, ?_, ?_⟩
  · exact metadata_extractors_spec.2.1 _ _ (by decide)
  · exact metadata_extractors_spec.2.2.1 _ _ (by decide) (by decide)
  · exact metadata_extractors_spec.2.2.2.1 _ (by decide) (by decide)
  · exact metadata_extractors_spec.2.2.2.2.2.1 1 none (by decide)
  · exact metadata_extractors_spec.2.2.2.2.2.2.2.1 _ _ (by decide)
  · exact metadata_extractors_spec.2.2.2.2.2.2.2.2.1 none [FfprobeStream.mk none]
      (FfprobeStream.mk (some [("creation_time", "2021-06-01T12:00:00Z")])) [] _
      (by decide) (by decide) (by decide)
  · exact metadata_extractors_spec.2.2.2.2.2.2.2.2.2.1 _ (by decide) (by decide)

/-! ## Catalog lemmas -/

theorem lookup_map_upd_ne (q : String) (sz : ℕ) (dt : Option String) (p : String)
    (h : p ≠ q) :
    ∀ cat : Catalog,
      lookupCat (cat.map (fun r => if r.file_path = q then CatRow.mk q sz dt else r)) p =
        lookupCat cat p := by
  intro cat
  induction cat with
  | nil => rfl
  | cons r cs ih =>
    by_cases hr : r.file_path = q
    · have hrp : r.file_path ≠ p := fun hrp => h (hrp ▸ hr)
      simp only [List.map_cons, lookupCat, if_pos hr]
      rw [List.find?_cons_of_neg _ (by simpa using fun hq : q = p => h hq.symm),
        List.find?_cons_of_neg _ (by simpa using hrp)]
      exact ih
    · simp only [List.map_cons, lookupCat, if_neg hr]
      by_cases hrp : r.file_path = p
      · rw [List.find?_cons_of_pos _ (by simpa using hrp),
          List.find?_cons_of_pos _ (by simpa using hrp)]
      · rw [List.find?_cons_of_neg _ (by simpa using hrp),
          List.find?_cons_of_neg _ (by simpa using hrp)]
        exact ih

theorem lookup_map_upd_self (q : String) (sz : ℕ) (dt : Option String) :
    ∀ cat : Catalog, cat.any (fun r => r.file_path = q) = true →
      lookupCat (cat.map (fun r => if r.file_path = q then CatRow.mk q sz dt else r)) q =
        some (sz, dt) := by
  intro cat
  induction cat with
  | nil => intro h; simp at h
  | cons r cs ih =>
    intro h
    by_cases hr : r.file_path = q
    · simp only [List.map_cons, lookupCat, if_pos hr]
      rw [List.find?_cons_of_pos _ (by simp)]
      rfl
    · simp only [List.map_cons, lookupCat, if_neg hr]
      rw [List.find?_cons_of_neg _ (by simpa using hr)]
      apply ih
      rcases List.any_eq_true.mp h with ⟨r2, hr2, hq2⟩
      rcases List.mem_cons.mp hr2 with rfl | hr3
      · exact absurd (by simpa using hq2) hr
      · exact List.any_eq_true.mpr ⟨r2, hr3, hq2⟩

theorem lookup_none_of_any_false (p : String) :
    ∀ cat : Catalog, cat.any (fun r => r.file_path = p) = false →
      lookupCat cat p = none := by
  intro cat
  induction cat with
  | nil => intro _; rfl
  | cons r cs ih =>
    intro h
    rw [List.any_cons, Bool.or_eq_false_iff] at h
    simp only [lookupCat]
    rw [List.find?_cons_of_neg _ (by simp [h.1])]
    exact ih h.2

theorem find?_none_of_lookup_none {cat : Catalog} {p : String}
    (h : lookupCat cat p = none) :
    List.find? (fun r => r.file_path = p) cat = none := by
  rw [lookupCat] at h
  exact Option.map_eq_none'.mp h

theorem lookup_upsert (cat : Catalog) (q : String) (sz : ℕ) (dt : Option String)
    (p : String) :
    lookupCat (upsert cat q sz dt) p =
      if p = q then some (sz, dt) else lookupCat cat p := by
  by_cases hany : cat.any (fun r => r.file_path = q) = true
  · rw [upsert, if_pos hany]
    by_cases hpq : p = q
    · subst hpq
      rw [if_pos rfl]
      exact lookup_map_upd_self p sz dt cat hany
    · rw [if_neg hpq]
      exact lookup_map_upd_ne q sz dt p hpq cat
  · rw [upsert, if_neg hany]
    rw [lookupCat, List.find?_append]
    by_cases hpq : p = q
    · subst hpq
      rw [find?_none_of_lookup_none
        (lookup_none_of_any_false p cat (by simpa using hany))]
      rw [List.find?_cons_of_pos _ (by simp)]
      simp [Option.or]
    · rw [if_neg hpq]
      cases hfind : List.find? (fun r => r.file_path = p) cat with
      | none =>
        rw [List.find?_cons_of_neg _
          (by simpa using fun h : q = p => hpq h.symm)]
        simp [lookupCat, hfind, Option.or]
      | some r => simp [lookupCat, hfind, Option.or]

theorem processFile_catalog (st : ScanState) (f : FsFile) :
    (processFile st f).catalog =
      if recognizedF f && f.readable then upsert st.catalog f.path f.size (dateOf f)
      else st.catalog := by
  cases h1 : recognizedF f <;> cases h2 : f.readable <;> simp [processFile, h1, h2]

theorem processFile_found (st : ScanState) (f : FsFile) :
    (processFile st f).found =
      st.found ++ (if recognizedF f then [f.path] else []) := by
  cases h1 : recognizedF f <;> cases h2 : f.readable <;> simp [processFile, h1, h2]

theorem scan_found_fold (fs : List FsFile) :
    ∀ st : ScanState,
      (fs.foldl processFile st).found =
        st.found ++ (fs.filter recognizedF).map (fun f => f.path) := by
  induction fs with
  | nil => intro st; simp
  | cons g rest ih =>
    intro st
    rw [List.foldl_cons, ih, processFile_found, List.filter_cons]
    cases h : recognizedF g <;> simp [h]

theorem scan_preserve (fs : List FsFile) :
    ∀ (st : ScanState) (p : String),
      (∀ f ∈ fs, ¬(f.path = p ∧ recognizedF f = true ∧ f.readable = true)) →
      lookupCat (fs.foldl processFile st).catalog p = lookupCat st.catalog p := by
  induction fs with
  | nil => intro st p _; rfl
  | cons g rest ih =>
    intro st p h
    rw [List.foldl_cons, ih _ p (fun f hf => h f (List.mem_cons.mpr (Or.inr hf)))]
    rw [processFile_catalog]
    by_cases hb : (recognizedF g && g.readable) = true
    · rw [if_pos hb, lookup_upsert, if_neg]
      intro hpq
      obtain ⟨h1, h2⟩ : recognizedF g = true ∧ g.readable = true := by simpa using hb
      exact h g (List.mem_cons.mpr (Or.inl rfl)) ⟨hpq.symm, h1, h2⟩
    · rw [if_neg hb]

theorem scan_hit (fs : List FsFile) :
    ∀ (st : ScanState) (f : FsFile),
      (fs.map (fun x => x.path)).Nodup → f ∈ fs → recognizedF f = true →
      f.readable = true →
      lookupCat (fs.foldl processFile st).catalog f.path = some (f.size, dateOf f) := by
  induction fs with
  | nil => intro st f _ hf; simp at hf
  | cons g rest ih =>
    intro st f hnd hf hrec hread
    rw [List.map_cons, List.nodup_cons] at hnd
    rcases List.mem_cons.mp hf with rfl | hf2
    · rw [List.foldl_cons]
      rw [scan_preserve rest _ f.path (fun f2 hf2 hcon =>
        hnd.1 (List.mem_map.mpr ⟨f2, hf2, hcon.1⟩))]
      rw [processFile_catalog, if_pos (by rw [hrec, hread]; rfl), lookup_upsert,
        if_pos rfl]
    · rw [List.foldl_cons]
      exact ih _ f hnd.2 hf2 hrec hread

theorem mem_upsert {r : CatRow} {c : Catalog} {q : String} {sz : ℕ}
    {dt : Option String} (h : r ∈ upsert c q sz dt) : r ∈ c ∨ r.file_path = q := by
  rw [upsert] at h
  split_ifs at h with hany
  · rcases List.mem_map.mp h with ⟨r0, hr0, heq⟩
    by_cases h0 : r0.file_path = q
    · right
      rw [← heq, if_pos h0]
    · left
      rw [← heq, if_neg h0]
      exact hr0
  · rcases List.mem_append.mp h with h1 | h1
    · exact Or.inl h1
    · right
      rw [List.mem_singleton.mp h1]

theorem paths_upsert (c : Catalog) (q : String) (sz : ℕ) (dt : Option String) :
    (upsert c q sz dt).map (fun r => r.file_path) =
      if c.any (fun r => r.file_path = q) then c.map (fun r => r.file_path)
      else c.map (fun r => r.file_path) ++ [q] := by
  rw [upsert]
  split_ifs with hany
  · rw [List.map_map]
    apply List.map_congr_left
    intro r _
    by_cases h0 : r.file_path = q <;> simp [h0]
  · simp

theorem nodup_upsert {c : Catalog} {q : String} {sz : ℕ} {dt : Option String}
    (h : NodupKeys c) : NodupKeys (upsert c q sz dt) := by
  rw [NodupKeys, paths_upsert]
  split_ifs with hany
  · exact h
  · rw [List.nodup_append]
    refine ⟨h, List.nodup_singleton q, fun a ha hb => ?_⟩
    rcases List.mem_singleton.mp hb with rfl
    rcases List.mem_map.mp ha with ⟨r, hr, hrq⟩
    exact hany (List.any_eq_true.mpr ⟨r, hr, by simp [hrq]⟩)

theorem scan_rows_mem (fs : List FsFile) :
    ∀ (st : ScanState) (r : CatRow), r ∈ (fs.foldl processFile st).catalog →
      r ∈ st.catalog ∨ r.file_path ∈ (fs.filter recognizedF).map (fun f => f.path) := by
  induction fs with
  | nil => intro st r h; exact Or.inl h
  | cons g rest ih =>
    intro st r h
    rw [List.foldl_cons] at h
    rcases ih _ r h with h1 | h1
    · rw [processFile_catalog] at h1
      split_ifs at h1 with hb
      · rcases mem_upsert h1 with h2 | h2
        · exact Or.inl h2
        · right
          have hrec : recognizedF g = true := by
            have : recognizedF g = true ∧ g.readable = true := by simpa using hb
            exact this.1
          rw [List.filter_cons, if_pos (by simpa using hrec), List.map_cons]
          exact List.mem_cons.mpr (Or.inl h2)
      · exact Or.inl h1
    · right
      rw [List.filter_cons]
      split_ifs with hg
      · rw [List.map_cons]
        exact List.mem_cons.mpr (Or.inr h1)
      · exact h1

theorem scan_nodup (fs : List FsFile) :
    ∀ st : ScanState, NodupKeys st.catalog →
      NodupKeys (fs.foldl processFile st).catalog := by
  induction fs with
  | nil => intro st h; exact h
  | cons g rest ih =>
    intro st h
    rw [List.foldl_cons]
    apply ih
    rw [processFile_catalog]
    split_ifs with hb
    · exact nodup_upsert h
    · exact h

theorem foldl_deleteRow (l : List String) :
    ∀ cat : Catalog, l.foldl deleteRow cat =
      cat.filter (fun r => decide (r.file_path ∉ l)) := by
  induction l with
  | nil => intro cat; simp
  | cons p ps ih =>
    intro cat
    rw [List.foldl_cons, ih, deleteRow, List.filter_filter]
    apply List.filter_congr
    intro r _
    by_cases h1 : r.file_path = p <;> by_cases h2 : r.file_path ∈ ps <;>
      simp [h1, h2, List.mem_cons]

theorem prune_catalog (cat : Catalog) (existing found : List String) :
    (prunePhase cat existing found).1 =
      cat.filter (fun r =>
        decide (¬(r.file_path ∈ existing ∧ r.file_path ∉ found))) := by
  simp only [prunePhase]
  split_ifs with hd
  · rw [foldl_deleteRow]
    apply List.filter_congr
    intro r _
    by_cases h : r.file_path ∈ existing ∧ r.file_path ∉ found
    · simp [List.mem_filter, h]
    · simp only [decide_eq_decide, List.mem_filter, decide_eq_true_eq]
  · have hempty : existing.filter (fun p => decide (p ∉ found)) = [] := by
      by_contra hne
      exact hd hne
    have hall : ∀ p ∈ existing, p ∈ found := by
      intro p hp
      by_contra hnf
      have : p ∈ existing.filter (fun p => decide (p ∉ found)) :=
        List.mem_filter.mpr ⟨hp, by simpa using hnf⟩
      rw [hempty] at this
      simp at this
    symm
    rw [List.filter_eq_self]
    intro r _
    simp only [decide_eq_true_eq]
    rintro ⟨he, hnf⟩
    exact hnf (hall _ he)

theorem lookup_prune (existing found : List String) (p : String) :
    ∀ cat : Catalog,
      lookupCat (cat.filter (fun r =>
          decide (¬(r.file_path ∈ existing ∧ r.file_path ∉ found)))) p =
        if ¬(p ∈ existing ∧ p ∉ found) then lookupCat cat p else none := by
  intro cat
  induction cat with
  | nil =>
    by_cases hq : ¬(p ∈ existing ∧ p ∉ found) <;> simp [lookupCat, hq]
  | cons r cs ih =>
    rw [List.filter_cons]
    by_cases hr : ¬(r.file_path ∈ existing ∧ r.file_path ∉ found)
    · rw [if_pos (by simp only [decide_eq_true_eq]; exact hr)]
      by_cases hrp : r.file_path = p
      · subst hrp
        rw [if_pos hr]
        simp only [lookupCat]
        rw [List.find?_cons_of_pos _ (by simp), List.find?_cons_of_pos _ (by simp)]
      · have hskip : lookupCat (r :: cs.filter (fun r2 =>
            decide (¬(r2.file_path ∈ existing ∧ r2.file_path ∉ found)))) p =
            lookupCat (cs.filter (fun r2 =>
              decide (¬(r2.file_path ∈ existing ∧ r2.file_path ∉ found)))) p := by
          simp only [lookupCat]
          rw [List.find?_cons_of_neg _ (by simpa using hrp)]
        rw [hskip, ih]
        by_cases hq : ¬(p ∈ existing ∧ p ∉ found)
        · rw [if_pos hq, if_pos hq]
          simp only [lookupCat]
          rw [List.find?_cons_of_neg _ (by simpa using hrp)]
        · rw [if_neg hq, if_neg hq]
    · rw [if_neg (by simp only [decide_eq_true_eq]; exact hr), ih]
      by_cases hq : ¬(p ∈ existing ∧ p ∉ found)
      · rw [if_pos hq, if_pos hq]
        have hrp : r.file_path ≠ p := by
          intro h
          exact hq (h ▸ not_not.mp hr)
        simp only [lookupCat]
        rw [List.find?_cons_of_neg _ (by simpa using hrp)]
      · rw [if_neg hq, if_neg hq]

theorem eq_of_same_path {fs : List FsFile}
    (hnd : (fs.map (fun x => x.path)).Nodup) :
    ∀ {f g : FsFile}, f ∈ fs → g ∈ fs → f.path = g.path → f = g := by
  induction fs with
  | nil => intro f g hf; simp at hf
  | cons a rest ih =>
    intro f g hf hg hpath
    rw [List.map_cons, List.nodup_cons] at hnd
    rcases List.mem_cons.mp hf with rfl | hf2 <;>
      rcases List.mem_cons.mp hg with rfl | hg2
    · rfl
    · exact absurd (List.mem_map.mpr ⟨g, hg2, hpath.symm⟩) hnd.1
    · exact absurd (List.mem_map.mpr ⟨f, hf2, hpath⟩) hnd.1
    · exact ih hnd.2 hf2 hg2 hpath

theorem lookup_none_of_not_mem {c : Catalog} {p : String}
    (h : p ∉ c.map (fun r => r.file_path)) : lookupCat c p = none := by
  apply lookup_none_of_any_false
  rw [← Bool.not_eq_true, List.any_eq_true]
  rintro ⟨r, hr, hrp⟩
  exact h (List.mem_map.mpr ⟨r, hr, by simpa using hrp⟩)

theorem scan_found_mem (c : Catalog) (fs : List FsFile) (q : String) :
    q ∈ (scanFiles c fs).found ↔
      ∃ f ∈ fs, recognizedF f = true ∧ f.path = q := by
  rw [scanFiles, scan_found_fold]
  simp only [List.nil_append, List.mem_map, List.mem_filter]
  constructor
  · rintro ⟨f, ⟨hf, hrec⟩, rfl⟩
    exact ⟨f, hf, hrec, rfl⟩
  · rintro ⟨f, hf, hrec, rfl⟩
    exact ⟨f, ⟨hf, hrec⟩, rfl⟩

/-- Per-path characterization of one reconciliation run: with distinct
walk paths, the stored entry of a path after the run is the (size, date)
of its recognized readable file, the prior entry when its file is
recognized but unreadable, and absent otherwise (unrecognized files are
never stored; vanished paths are pruned). -/
theorem lookup_reconcile (c : Catalog) (fs : List FsFile) (p : String)
    (hfs : (fs.map (fun x => x.path)).Nodup) :
    lookupCat (reconcile c fs) p =
      match fs.find? (fun f => f.path = p) with
      | some f =>
        if recognizedF f = true then
          (if f.readable = true then some (f.size, dateOf f) else lookupCat c p)
        else none
      | none => none := by
  have hrec1 : reconcile c fs =
      (prunePhase (scanFiles c fs).catalog (c.map (fun r => r.file_path))
        (scanFiles c fs).found).1 := by
    rw [reconcile, reconcileFull]
  rw [hrec1, prune_catalog, lookup_prune]
  cases hfind : fs.find? (fun f => f.path = p) with
  | some f =>
    dsimp only
    have hfmem : f ∈ fs := List.mem_of_find?_eq_some hfind
    have hfp : f.path = p := by simpa using List.find?_some hfind
    by_cases hrecog : recognizedF f = true
    · have hpfound : p ∈ (scanFiles c fs).found :=
        (scan_found_mem c fs p).mpr ⟨f, hfmem, hrecog, hfp⟩
      rw [if_pos (fun hcon => hcon.2 hpfound), if_pos hrecog]
      by_cases hread : f.readable = true
      · rw [if_pos hread, ← hfp, scanFiles]
        exact scan_hit fs _ f hfs hfmem hrecog hread
      · rw [if_neg hread, scanFiles]
        rw [scan_preserve fs _ p ?hnone]
        case hnone =>
          intro f2 hf2 hcon
          have hte : f2 = f :=
            eq_of_same_path hfs hf2 hfmem (hcon.1.trans hfp.symm)
          exact hread (hte ▸ hcon.2.2)
    · have hnotfound : p ∉ (scanFiles c fs).found := by
        intro hmem
        rcases (scan_found_mem c fs p).mp hmem with ⟨f2, hf2, hrec2, hfp2⟩
        have : f2 = f := eq_of_same_path hfs hf2 hfmem (hfp2.trans hfp.symm)
        exact hrecog (this ▸ hrec2)
      have hpres : lookupCat (scanFiles c fs).catalog p = lookupCat c p := by
        rw [scanFiles]
        apply scan_preserve
        intro f2 hf2 hcon
        have : f2 = f := eq_of_same_path hfs hf2 hfmem (hcon.1.trans hfp.symm)
        exact hrecog (this ▸ hcon.2.1)
      rw [if_neg hrecog]
      by_cases hex : p ∈ c.map (fun r => r.file_path)
      · rw [if_neg (not_not_intro ⟨hex, hnotfound⟩)]
      · rw [if_pos (fun hcon => hex hcon.1), hpres]
        exact lookup_none_of_not_mem hex
  | none =>
    dsimp only
    have hall : ∀ f ∈ fs, f.path ≠ p := by
      intro f hf
      have := List.find?_eq_none.mp hfind f hf
      simpa using this
    have hnotfound : p ∉ (scanFiles c fs).found := by
      intro hmem
      rcases (scan_found_mem c fs p).mp hmem with ⟨f2, hf2, _, hfp2⟩
      exact hall f2 hf2 hfp2
    have hpres : lookupCat (scanFiles c fs).catalog p = lookupCat c p := by
      rw [scanFiles]
      apply scan_preserve
      intro f2 hf2 hcon
      exact hall f2 hf2 hcon.1
    by_cases hex : p ∈ c.map (fun r => r.file_path)
    · rw [if_neg (not_not_intro ⟨hex, hnotfound⟩)]
    · rw [if_pos (fun hcon => hex hcon.1), hpres]
      exact lookup_none_of_not_mem hex

theorem find?_unique_path {fs : List FsFile}
    (hnd : (fs.map (fun x => x.path)).Nodup) {f : FsFile} (hf : f ∈ fs) :
    fs.find? (fun g => g.path = f.path) = some f := by
  cases hfind : fs.find? (fun g => g.path = f.path) with
  | none =>
    have := List.find?_eq_none.mp hfind f hf
    simp at this
  | some g =>
    have hg : g ∈ fs := List.mem_of_find?_eq_some hfind
    have hgp : g.path = f.path := by simpa using List.find?_some hfind
    rw [eq_of_same_path hnd hg hf hgp]

/-- C7: when the size read of a recognized file fails during the walk,
only that file is skipped: its path is already in found_files, its prior
catalog entry (if any) survives the run unchanged — neither updated nor
pruned — and every other recognized readable file is still stored with
its own scan values. -/
theorem size_failure_spec (c : Catalog) (fs : List FsFile) (f : FsFile)
    (hfs : (fs.map (fun x => x.path)).Nodup) (hf : f ∈ fs)
    (hrec : recognizedF f = true) (hunread : f.readable = false) :
    lookupCat (reconcile c fs) f.path = lookupCat c f.path
    ∧ f.path ∈ (scanFiles c fs).found
    ∧ (∀ g ∈ fs, recognizedF g = true → g.readable = true →
        lookupCat (reconcile c fs) g.path = some (g.size, dateOf g)) := by
  refine ⟨?_, ?_, ?_⟩
  · rw [lookup_reconcile c fs _ hfs, find?_unique_path hfs hf]
    dsimp only
    rw [if_pos hrec, if_neg (by simp [hunread])]
  · exact (scan_found_mem c fs f.path).mpr ⟨f, hf, hrec, rfl⟩
  · intro g hg hgrec hgread
    rw [lookup_reconcile c fs _ hfs, find?_unique_path hfs hg]
    dsimp only
    rw [if_pos hgrec, if_pos hgread]

/-- Concrete unreadable recognized file. -/
def fileUnreadable : FsFile :=
  FsFile.mk "b.jpg" "/r/b.jpg" 9 false none ProbeResult.failure

/-- Concrete readable recognized image file. -/
def fileReadable : FsFile :=
  FsFile.mk "a.JPG" "/r/a.JPG" 4 true (some [(36867, "2023:05:01 10:00:00")])
    ProbeResult.failure

/-- Concrete readable recognized video file. -/
def fileVideo : FsFile :=
  FsFile.mk "c.mp4" "/r/c.mp4" 6 true none
    (ProbeResult.exited 0 (some (FfprobeData.mk
      (some [("creation_time", "2020-01-01T00:00:00Z")]) none)))

/-- Concrete unrecognized file. -/
def fileOther : FsFile :=
  FsFile.mk "n.txt" "/r/n.txt" 3 true none ProbeResult.failure

/-- Concrete prior catalog for the reconciliation witnesses. -/
def catPrior : Catalog :=
  [CatRow.mk "/r/b.jpg" 1 (some "old"), CatRow.mk "/r/gone.png" 2 none]

/-- Witness for size_failure_spec: at the concrete tree, the unreadable
file keeps its prior entry and the other files are stored. -/
theorem size_failure_spec_witness :
    lookupCat (reconcile catPrior [fileReadable, fileUnreadable, fileVideo])
        fileUnreadable.path = lookupCat catPrior fileUnreadable.path
    ∧ fileUnreadable.path ∈
        (scanFiles catPrior [fileReadable, fileUnreadable, fileVideo]).found
    ∧ lookupCat (reconcile catPrior [fileReadable, fileUnreadable, fileVideo])
        fileVideo.path = some (fileVideo.size, dateOf fileVideo) := by
  have h := size_failure_spec catPrior [fileReadable, fileUnreadable, fileVideo]
    fileUnreadable (by decide) (by decide) (by decide) (by decide)
  exact ⟨h.1, h.2.1, h.2.2 fileVideo (by decide) (by decide) (by decide)⟩

theorem eq_of_same_key {c : Catalog} (h : NodupKeys c) :
    ∀ {r1 r2 : CatRow}, r1 ∈ c → r2 ∈ c → r1.file_path = r2.file_path → r1 = r2 := by
  induction c with
  | nil => intro r1 r2 hr1; simp at hr1
  | cons a cs ih =>
    intro r1 r2 hr1 hr2 hpath
    rw [NodupKeys, List.map_cons, List.nodup_cons] at h
    rcases List.mem_cons.mp hr1 with rfl | h1 <;>
      rcases List.mem_cons.mp hr2 with rfl | h2
    · rfl
    · exact absurd (List.mem_map.mpr ⟨r2, h2, hpath.symm⟩) h.1
    · exact absurd (List.mem_map.mpr ⟨r1, h1, hpath⟩) h.1
    · exact ih h.2 h1 h2 hpath

theorem row_of_lookup_some {c : Catalog} {p : String} {sz : ℕ} {dt : Option String}
    (h : lookupCat c p = some (sz, dt)) : CatRow.mk p sz dt ∈ c := by
  rw [lookupCat] at h
  cases hfind : c.find? (fun r => r.file_path = p) with
  | none => rw [hfind] at h; simp at h
  | some r =>
    rw [hfind] at h
    have hmem := List.mem_of_find?_eq_some hfind
    have hp : r.file_path = p := by simpa using List.find?_some hfind
    have hval : (r.file_size, r.date_taken) = (sz, dt) := by simpa using h
    have : r = CatRow.mk p sz dt := by
      cases r
      simp only [CatRow.mk.injEq]
      simp only [Prod.mk.injEq] at hval
      exact ⟨hp, hval.1, hval.2⟩
    exact this ▸ hmem

theorem nodup_filter_cat {c : Catalog} (h : NodupKeys c) (q : CatRow → Bool) :
    NodupKeys (c.filter q) := by
  rw [NodupKeys] at h ⊢
  exact ((List.filter_sublist c).map (fun r => r.file_path)).nodup h

theorem nodup_reconcile {c : Catalog} {fs : List FsFile} (hc : NodupKeys c) :
    NodupKeys (reconcile c fs) := by
  have h1 : NodupKeys (scanFiles c fs).catalog := by
    rw [scanFiles]
    exact scan_nodup fs _ hc
  have h2 : reconcile c fs =
      (prunePhase (scanFiles c fs).catalog (c.map (fun r => r.file_path))
        (scanFiles c fs).found).1 := by
    rw [reconcile, reconcileFull]
  rw [h2, prune_catalog]
  exact nodup_filter_cat h1 _

theorem count_one_of_mem {c : Catalog} (h : NodupKeys c) {r : CatRow} (hr : r ∈ c) :
    (c.filter (fun r2 => r2.file_path = r.file_path)).length = 1 := by
  induction c with
  | nil => simp at hr
  | cons a cs ih =>
    rw [NodupKeys, List.map_cons, List.nodup_cons] at h
    rcases List.mem_cons.mp hr with rfl | h1
    · rw [List.filter_cons, if_pos (by simp)]
      rw [List.length_cons]
      have : cs.filter (fun r2 => r2.file_path = r.file_path) = [] := by
        rw [List.filter_eq_nil_iff]
        intro r2 hr2
        simp only [decide_eq_true_eq]
        intro hpath
        exact h.1 (List.mem_map.mpr ⟨r2, hr2, hpath⟩)
      rw [this]
      rfl
    · rw [List.filter_cons, if_neg ?hna]
      · exact ih h.2 h1
      case hna =>
        simp only [decide_eq_true_eq]
        intro hpath
        exact h.1 (List.mem_map.mpr ⟨r, h1, hpath.symm⟩)

/-- C5 (amended): after a scan over a tree with distinct paths, the
catalog holds exactly one entry, keyed by path, for every recognized file
whose size read succeeded, carrying that scan's size and date and
overwriting any prior entry; a recognized file whose size read failed
keeps its prior entry (or none); files with unrecognized extensions and
paths absent from the walk have no entry. -/
theorem catalog_completeness_spec (c : Catalog) (fs : List FsFile)
    (hc : NodupKeys c) (hfs : (fs.map (fun x => x.path)).Nodup) :
    (∀ f ∈ fs, recognizedF f = true → f.readable = true →
      lookupCat (reconcile c fs) f.path = some (f.size, dateOf f)
      ∧ ((reconcile c fs).filter (fun r => r.file_path = f.path)).length = 1)
    ∧ (∀ f ∈ fs, recognizedF f = false →
        lookupCat (reconcile c fs) f.path = none)
    ∧ (∀ f ∈ fs, recognizedF f = true → f.readable = false →
        lookupCat (reconcile c fs) f.path = lookupCat c f.path)
    ∧ (∀ p, (∀ f ∈ fs, f.path ≠ p) → lookupCat (reconcile c fs) p = none) := by
  refine ⟨?_, ?_, ?_, ?_⟩
  · intro f hf hrec hread
    have hlook : lookupCat (reconcile c fs) f.path = some (f.size, dateOf f) := by
      rw [lookup_reconcile c fs _ hfs, find?_unique_path hfs hf]
      dsimp only
      rw [if_pos hrec, if_pos hread]
    refine ⟨hlook, ?_⟩
    have hmem : CatRow.mk f.path f.size (dateOf f) ∈ reconcile c fs :=
      row_of_lookup_some hlook
    have := count_one_of_mem (nodup_reconcile hc) hmem
    simpa using this
  · intro f hf hrec
    rw [lookup_reconcile c fs _ hfs, find?_unique_path hfs hf]
    dsimp only
    rw [if_neg (by simp [hrec])]
  · intro f hf hrec hread
    rw [lookup_reconcile c fs _ hfs, find?_unique_path hfs hf]
    dsimp only
    rw [if_pos hrec, if_neg (by simp [hread])]
  · intro p hall
    rw [lookup_reconcile c fs _ hfs]
    have : fs.find? (fun f => f.path = p) = none := by
      rw [List.find?_eq_none]
      intro f hf
      simpa using hall f hf
    rw [this]

/-- C5 is false as stated: a file with a recognized extension whose size
read fails gets no catalog entry at all — here a fresh scan of one
recognized but unreadable file leaves the catalog empty instead of
holding exactly one entry for it. -/
theorem catalog_completeness_cex :
    recognizedF fileUnreadable = true
    ∧ reconcile [] [fileUnreadable] = []
    ∧ ((reconcile [] [fileUnreadable]).filter
        (fun r => r.file_path = fileUnreadable.path)).length = 0 := by
  decide

/-- Witness for catalog_completeness_spec at the concrete tree. -/
theorem catalog_completeness_spec_witness :
    lookupCat (reconcile catPrior [fileReadable, fileUnreadable, fileVideo])
        fileReadable.path = some (fileReadable.size, dateOf fileReadable)
    ∧ ((reconcile catPrior [fileReadable, fileUnreadable, fileVideo]).filter
        (fun r => r.file_path = fileReadable.path)).length = 1
    ∧ lookupCat (reconcile catPrior [fileReadable, fileUnreadable, fileVideo])
        "/r/gone.png" = none := by
  have h := catalog_completeness_spec catPrior [fileReadable, fileUnreadable, fileVideo]
    (by decide) (by decide)
  have h1 := h.1 fileReadable (by decide) (by decide) (by decide)
  exact ⟨h1.1, h1.2, h.2.2.2 "/r/gone.png" (by decide)⟩

/-- C6: pruning deletes from the store exactly the paths in existing
minus found and no others; when something was deleted the phase emits the
count report, a single commit after all deletions, and the removed-count
report; when nothing was deleted it emits the explicit no-deletions
report instead of silence (there is nothing to commit); and deleting one
indexed file from the tree and rescanning removes exactly that file's
entry: the file was stored after the first run, its entry is gone after
the rescan, and every other path's entry is unchanged. -/
theorem prune_spec :
    (∀ (cat : Catalog) (existing found : List String),
      (prunePhase cat existing found).1 =
        cat.filter (fun r =>
          decide (¬(r.file_path ∈ existing ∧ r.file_path ∉ found)))
      ∧ (existing.filter (fun p => decide (p ∉ found)) ≠ [] →
          (prunePhase cat existing found).2 =
            [Event.msg ("Found " ++
                toString (existing.filter (fun p => decide (p ∉ found))).length ++
                " deleted files. Removing from database..."),
             Event.commit,
             Event.msg ("Removed " ++
                toString (existing.filter (fun p => decide (p ∉ found))).length ++
                " entries.")])
      ∧ (existing.filter (fun p => decide (p ∉ found)) = [] →
          (prunePhase cat existing found).2 = [Event.msg "No deleted files found."]))
    ∧ (∀ (c : Catalog) (pre post : List FsFile) (f : FsFile),
        ((pre ++ f :: post).map (fun x => x.path)).Nodup →
        recognizedF f = true → f.readable = true →
        lookupCat (reconcile c (pre ++ f :: post)) f.path = some (f.size, dateOf f)
        ∧ lookupCat (reconcile (reconcile c (pre ++ f :: post)) (pre ++ post))
            f.path = none
        ∧ (∀ p, p ≠ f.path →
            lookupCat (reconcile (reconcile c (pre ++ f :: post)) (pre ++ post)) p =
              lookupCat (reconcile c (pre ++ f :: post)) p)) := by
  constructor
  · intro cat existing found
    refine ⟨prune_catalog cat existing found, ?_, ?_⟩
    · intro hne
      simp only [prunePhase]
      rw [if_pos hne]
    · intro hnil
      simp only [prunePhase]
      rw [if_neg (not_not_intro hnil)]
  · intro c pre post f hnd hrec hread
    have hperm : ((pre ++ f :: post).map (fun x => x.path)).Perm
        (f.path :: (pre ++ post).map (fun x => x.path)) := by
      rw [List.map_append, List.map_cons, List.map_append]
      exact List.perm_middle
    have hcons := hperm.nodup_iff.mp hnd
    rw [List.nodup_cons] at hcons
    obtain ⟨hfnot, hnd2⟩ := hcons
    have hfmem : f ∈ pre ++ f :: post :=
      List.mem_append.mpr (Or.inr (List.mem_cons.mpr (Or.inl rfl)))
    have hfind_ne : ∀ p, p ≠ f.path →
        (pre ++ f :: post).find? (fun g => g.path = p) =
          (pre ++ post).find? (fun g => g.path = p) := by
      intro p hp
      rw [List.find?_append, List.find?_append,
        List.find?_cons_of_neg _ (by simpa using fun h : f.path = p => hp h.symm)]
    have hfind_f : (pre ++ post).find? (fun g => g.path = f.path) = none := by
      rw [List.find?_eq_none]
      intro g hg
      simp only [decide_eq_true_eq]
      intro hgp
      exact hfnot (hgp ▸ List.mem_map.mpr ⟨g, hg, rfl⟩)
    refine ⟨?_, ?_, ?_⟩
    · rw [lookup_reconcile c _ _ hnd, find?_unique_path hnd hfmem]
      dsimp only
      rw [if_pos hrec, if_pos hread]
    · rw [lookup_reconcile _ _ _ hnd2, hfind_f]
    · intro p hp
      have hRHS : lookupCat (reconcile c (pre ++ f :: post)) p =
          match (pre ++ post).find? (fun g => g.path = p) with
          | some g =>
            if recognizedF g = true then
              (if g.readable = true then some (g.size, dateOf g)
               else lookupCat c p)
            else none
          | none => none := by
        rw [lookup_reconcile c _ _ hnd, hfind_ne p hp]
      rw [lookup_reconcile _ _ _ hnd2, hRHS]
      cases hfind : (pre ++ post).find? (fun g => g.path = p) with
      | none => rfl
      | some g =>
        dsimp only
        split_ifs <;> rfl

/-- Witness for prune_spec: the prune conjuncts at a concrete store and
the rescan scenario at the concrete tree, hypotheses discharged by
evaluation. -/
theorem prune_spec_witness :
    (prunePhase [CatRow.mk "/r/x.jpg" 1 none, CatRow.mk "/r/y.jpg" 2 none]
        ["/r/x.jpg", "/r/y.jpg"] ["/r/y.jpg"]).1 =
      ([CatRow.mk "/r/x.jpg" 1 none, CatRow.mk "/r/y.jpg" 2 none].filter
        (fun r => decide (¬(r.file_path ∈ ["/r/x.jpg", "/r/y.jpg"] ∧
          r.file_path ∉ ["/r/y.jpg"]))))
    ∧ (prunePhase [] [] []).2 = [Event.msg "No deleted files found."]
    ∧ lookupCat (reconcile (reconcile catPrior [fileReadable, fileVideo])
        [fileReadable]) fileVideo.path = none
    ∧ lookupCat (reconcile (reconcile catPrior [fileReadable, fileVideo])
        [fileReadable]) fileReadable.path =
      lookupCat (reconcile catPrior [fileReadable, fileVideo]) fileReadable.path := by
  have hscen := prune_spec.2 catPrior [fileReadable] [] fileVideo
    (by decide) (by decide) (by decide)
  refine ⟨(prune_spec.1 _ _ _).1, (prune_spec.1 [] [] []).2.2 (by decide), ?_, ?_⟩
  · exact hscen.2.1
  · exact hscen.2.2 fileReadable.path (by decide)

theorem upsert_self {c : Catalog} {p : String} {sz : ℕ} {dt : Option String}
    (hmem : CatRow.mk p sz dt ∈ c)
    (huniq : ∀ r ∈ c, r.file_path = p → r = CatRow.mk p sz dt) :
    upsert c p sz dt = c := by
  rw [upsert, if_pos (List.any_eq_true.mpr ⟨_, hmem, by simp⟩)]
  have : ∀ r ∈ c, (if r.file_path = p then CatRow.mk p sz dt else r) = r := by
    intro r hr
    by_cases h : r.file_path = p
    · rw [if_pos h, huniq r hr h]
    · rw [if_neg h]
  rw [List.map_congr_left this]
  exact List.map_id' c

theorem scan_catalog_id (fs : List FsFile) :
    ∀ st : ScanState,
      (∀ f ∈ fs, recognizedF f = true → f.readable = true →
        upsert st.catalog f.path f.size (dateOf f) = st.catalog) →
      (fs.foldl processFile st).catalog = st.catalog := by
  induction fs with
  | nil => intro st _; rfl
  | cons g rest ih =>
    intro st h
    rw [List.foldl_cons]
    have hcat : (processFile st g).catalog = st.catalog := by
      rw [processFile_catalog]
      split_ifs with hb
      · obtain ⟨h1, h2⟩ : recognizedF g = true ∧ g.readable = true := by simpa using hb
        exact h g (List.mem_cons.mpr (Or.inl rfl)) h1 h2
      · rfl
    have := ih (processFile st g) (fun f hf h1 h2 => by
      rw [hcat]
      exact h f (List.mem_cons.mpr (Or.inr hf)) h1 h2)
    rw [this, hcat]

theorem reconcile_rows_found (c : Catalog) (fs : List FsFile) :
    ∀ r ∈ reconcile c fs, r.file_path ∈ (scanFiles c fs).found := by
  intro r hr
  have hrec1 : reconcile c fs =
      (prunePhase (scanFiles c fs).catalog (c.map (fun r => r.file_path))
        (scanFiles c fs).found).1 := by
    rw [reconcile, reconcileFull]
  rw [hrec1, prune_catalog] at hr
  have h2 := List.mem_filter.mp hr
  have h3 : r ∈ c ∨
      r.file_path ∈ (fs.filter recognizedF).map (fun f => f.path) := by
    have h4 := scan_rows_mem fs (ScanState.mk c [] 0 []) r h2.1
    simpa using h4
  rcases h3 with h4 | h4
  · have hex : r.file_path ∈ c.map (fun r => r.file_path) :=
      List.mem_map.mpr ⟨r, h4, rfl⟩
    have hcond := h2.2
    simp only [decide_eq_true_eq] at hcond
    by_contra hnf
    exact hcond ⟨hex, hnf⟩
  · rw [scanFiles, scan_found_fold]
    simpa using h4

/-- C4: reconciliation is idempotent — scanning the unchanged tree a
second time maps the catalog produced by the first scan to itself, the
two runs therefore yielding identical catalog contents. -/
theorem reconcile_idempotent (c : Catalog) (fs : List FsFile)
    (hc : NodupKeys c) (hfs : (fs.map (fun x => x.path)).Nodup) :
    reconcile (reconcile c fs) fs = reconcile c fs := by
  have hLnd : NodupKeys (reconcile c fs) := nodup_reconcile hc
  have hscan2 : (scanFiles (reconcile c fs) fs).catalog = reconcile c fs := by
    rw [scanFiles]
    apply scan_catalog_id
    intro f hf h1 h2
    have hlook : lookupCat (reconcile c fs) f.path = some (f.size, dateOf f) := by
      rw [lookup_reconcile c fs _ hfs, find?_unique_path hfs hf]
      dsimp only
      rw [if_pos h1, if_pos h2]
    have hmem : CatRow.mk f.path f.size (dateOf f) ∈ reconcile c fs :=
      row_of_lookup_some hlook
    exact upsert_self hmem (fun r hr hrp => eq_of_same_key hLnd hr hmem hrp)
  have hfound2 : ∀ p ∈ (reconcile c fs).map (fun r => r.file_path),
      p ∈ (scanFiles (reconcile c fs) fs).found := by
    intro p hp
    rcases List.mem_map.mp hp with ⟨r, hr, rfl⟩
    have h1 := reconcile_rows_found c fs r hr
    rw [scanFiles, scan_found_fold] at h1 ⊢
    exact h1
  have hdel : ((reconcile c fs).map (fun r => r.file_path)).filter
      (fun p => decide (p ∉ (scanFiles (reconcile c fs) fs).found)) = [] := by
    rw [List.filter_eq_nil_iff]
    intro p hp
    simp only [decide_eq_true_eq, not_not]
    exact hfound2 p hp
  have hrec2 : reconcile (reconcile c fs) fs =
      (prunePhase (scanFiles (reconcile c fs) fs).catalog
        ((reconcile c fs).map (fun r => r.file_path))
        (scanFiles (reconcile c fs) fs).found).1 := by
    rw [reconcile, reconcileFull]
  rw [hrec2]
  simp only [prunePhase, hdel]
  rw [if_neg (by simp)]
  exact hscan2

/-- Witness for reconcile_idempotent: the second run over the concrete
tree reproduces the first catalog exactly, hypotheses evaluated. -/
theorem reconcile_idempotent_witness :
    NodupKeys catPrior
    ∧ reconcile (reconcile catPrior [fileReadable, fileUnreadable, fileVideo, fileOther])
        [fileReadable, fileUnreadable, fileVideo, fileOther] =
      reconcile catPrior [fileReadable, fileUnreadable, fileVideo, fileOther] :=
  ⟨by decide, reconcile_idempotent catPrior
    [fileReadable, fileUnreadable, fileVideo, fileOther] (by decide) (by decide)⟩

/-! ## index_pictures.py: top-level store-failure handling (lines 101-170) -/

/-- Where, if anywhere, sqlite3 raises sqlite3.Error during the run. -/
inductive StoreFailure where
  | atOpen : StoreFailure
  | afterOpen : StoreFailure
  | noFailure : StoreFailure
deriving DecidableEq

/-- Observable process outcome: a normal exit carries the status, whether
the sqlite error message was printed and whether the connection was
closed; crashed carries the name of an uncaught exception, on which
CPython terminates with status 1. -/
inductive RunOutcome where
  | exited : ℕ → Bool → Bool → RunOutcome
  | crashed : String → RunOutcome
deriving DecidableEq

/-- Models the try/except sqlite3.Error/finally of main (index_pictures.py
lines 101-170) with CPython semantics.  When sqlite3.connect itself
raises (atOpen), the except block prints the error, but the finally block
then evaluates the test "if conn:" with the local variable conn never
assigned, which raises UnboundLocalError; that exception propagates out
of main, so the process prints a traceback and terminates with status 1
and no connection exists to close.  When a later store operation raises
(afterOpen), conn is bound: the handler prints the message, the finally
block closes the connection, and main returns normally, so the process
exits with status 0 — exactly as in a failure-free run. -/
def mainStoreOutcome : StoreFailure → RunOutcome
  | StoreFailure.atOpen => RunOutcome.crashed "UnboundLocalError"
  | StoreFailure.afterOpen => RunOutcome.exited 0 true true
  | StoreFailure.noFailure => RunOutcome.exited 0 false true

/-- Exit status of an outcome (an uncaught exception exits with 1). -/
def exitStatus : RunOutcome → ℕ
  | RunOutcome.exited code _ _ => code
  | RunOutcome.crashed _ => 1

/-- C10 evaluated on the code: a store failure after a successful open is
printed, the connection is closed and the process exits 0, exactly as the
claim says; but a failure of the open itself makes the finally block
raise UnboundLocalError on the unassigned conn, so the process crashes
with exit status 1 instead of the claimed clean 0 — the claim describes
the intended handler, and the code's unguarded finally is the slip. -/
theorem store_failure_outcome :
    mainStoreOutcome StoreFailure.afterOpen = RunOutcome.exited 0 true true
    ∧ mainStoreOutcome StoreFailure.atOpen = RunOutcome.crashed "UnboundLocalError"
    ∧ exitStatus (mainStoreOutcome StoreFailure.atOpen) = 1
    ∧ exitStatus (mainStoreOutcome StoreFailure.noFailure) = 0 := by
  decide
